import Mathlib

/-!
Verification development for the pypeul IRC client library (`src/pypeul.py`).
The Python source is shallowly embedded: strings are `List Char`, bytes are
`List Nat` (each < 256 on the wire), dictionaries are association lists, and
fallible Python code (exceptions) is embedded with `Option`/`Except`.
-/

namespace Pypeul

abbrev Chars := List Char

instance {ε α : Type} [DecidableEq ε] [DecidableEq α] : DecidableEq (Except ε α) := fun a b =>
  match a, b with
  | .error e, .error e' =>
    if h : e = e' then .isTrue (by rw [h]) else .isFalse (by simp [h])
  | .ok v, .ok v' =>
    if h : v = v' then .isTrue (by rw [h]) else .isFalse (by simp [h])
  | .error _, .ok _ => .isFalse (by simp)
  | .ok _, .error _ => .isFalse (by simp)

/-- ASCII lowercase of one character.  `irc_lower` in the source lowercases the
UTF-8 byte string, which only affects the ASCII letters A-Z, so on the level of
characters it is exactly ASCII lowercasing. -/
def asciiLower (c : Char) : Char :=
  if 'A' ≤ c ∧ c ≤ 'Z' then Char.ofNat (c.toNat + 32) else c

/-- ASCII uppercase of one character (Python `str.upper` restricted to ASCII,
which is all the source ever feeds it: IRC command tokens). -/
def asciiUpper (c : Char) : Char :=
  if 'a' ≤ c ∧ c ≤ 'z' then Char.ofNat (c.toNat - 32) else c

/-- `irc_lower` from the source: case-fold a nick for registry keys. -/
def irc_lower (s : Chars) : Chars := s.map asciiLower

def pyUpper (s : Chars) : Chars := s.map asciiUpper

def pyLower (s : Chars) : Chars := s.map asciiLower

/-- Python `s.strip(chars)`: remove leading and trailing characters drawn from
`bad` from both ends. -/
def pyStripLeft (bad : Chars) : Chars → Chars
  | [] => []
  | c :: rest => if c ∈ bad then pyStripLeft bad rest else c :: rest

def pyStrip (bad : Chars) (s : Chars) : Chars :=
  ((pyStripLeft bad (pyStripLeft bad s.reverse).reverse))

/-- Python `s.split(sep)` for a one-character separator: splits at every
occurrence, keeping empty pieces. -/
def pySplit (sep : Char) : Chars → List Chars
  | [] => [[]]
  | c :: rest =>
    let r := pySplit sep rest
    if c = sep then [] :: r
    else match r with
      | [] => [[c]]
      | p :: ps => (c :: p) :: ps

/-- Python `sep.join(pieces)` for a one-character separator. -/
def pyJoin (sep : Char) : List Chars → Chars
  | [] => []
  | [p] => p
  | p :: ps => p ++ sep :: pyJoin sep ps

/- ------------------------------------------------------------------
`IRC.to_unicode` (C9): incoming byte strings are decoded by trying
`ascii`, then `utf-8`, then `iso-8859-15` with `errors='replace'`.
Bytes are `Nat`s; a decoder returns `none` where the Python codec would
raise `UnicodeDecodeError`.
------------------------------------------------------------------- -/

def decodeAscii : List Nat → Option Chars
  | [] => some []
  | b :: bs =>
    if b < 0x80 then (decodeAscii bs).map (fun r => Char.ofNat b :: r)
    else none

def isUtf8Cont (b : Nat) : Bool := 0x80 ≤ b && b ≤ 0xBF

/-- One UTF-8 encoded scalar: the leading byte, its continuation bytes, and
the unconsumed remainder.  Overlong encodings, surrogates and code points
above `0x10FFFF` are rejected, as in Python's strict `utf-8` codec. -/
def utf8_decode_one (b : Nat) (bs : List Nat) : Option (Char × List Nat) :=
  if b < 0x80 then some (Char.ofNat b, bs)
  else if 0xC2 ≤ b && b ≤ 0xDF then
    match bs with
    | b1 :: bs1 =>
      if isUtf8Cont b1 then some (Char.ofNat ((b - 0xC0) * 0x40 + (b1 - 0x80)), bs1)
      else none
    | [] => none
  else if 0xE0 ≤ b && b ≤ 0xEF then
    match bs with
    | b1 :: b2 :: bs2 =>
      if ((if b = 0xE0 then 0xA0 else 0x80) ≤ b1 &&
          b1 ≤ (if b = 0xED then 0x9F else 0xBF)) && isUtf8Cont b2 then
        some (Char.ofNat (((b - 0xE0) * 0x40 + (b1 - 0x80)) * 0x40 + (b2 - 0x80)), bs2)
      else none
    | _ => none
  else if 0xF0 ≤ b && b ≤ 0xF4 then
    match bs with
    | b1 :: b2 :: b3 :: bs3 =>
      if (((if b = 0xF0 then 0x90 else 0x80) ≤ b1 &&
           b1 ≤ (if b = 0xF4 then 0x8F else 0xBF)) && isUtf8Cont b2) && isUtf8Cont b3 then
        some (Char.ofNat ((((b - 0xF0) * 0x40 + (b1 - 0x80)) * 0x40 + (b2 - 0x80)) * 0x40 +
          (b3 - 0x80)), bs3)
      else none
    | _ => none
  else none

/-- Strict UTF-8 decoding.  Every step consumes at least one byte but one
unit of fuel, so `fuel = length` suffices and the `0, _ :: _` case is
unreachable from `decodeUtf8`. -/
def decodeUtf8_go : Nat → List Nat → Option Chars
  | _, [] => some []
  | 0, _ :: _ => none
  | fuel + 1, b :: bs =>
    match utf8_decode_one b bs with
    | some (c, rest) => (decodeUtf8_go fuel rest).map (fun r => c :: r)
    | none => none

def decodeUtf8 (bs : List Nat) : Option Chars := decodeUtf8_go bs.length bs

/-- One byte of `iso-8859-15`: identical to Latin-1 except at eight positions.
Every byte value is defined, so decoding never fails (the source additionally
passes `errors='replace'`, making failure doubly impossible). -/
def latin9Char (b : Nat) : Char :=
  if b = 0xA4 then '€'
  else if b = 0xA6 then 'Š'
  else if b = 0xA8 then 'š'
  else if b = 0xB4 then 'Ž'
  else if b = 0xB8 then 'ž'
  else if b = 0xBC then 'Œ'
  else if b = 0xBD then 'œ'
  else if b = 0xBE then 'Ÿ'
  else Char.ofNat b

def decodeLatin9 (bs : List Nat) : Chars := bs.map latin9Char

/-- `IRC.to_unicode`: try `ascii`, on `UnicodeDecodeError` try `utf-8`, on
`UnicodeDecodeError` decode as `iso-8859-15` with replacement (total). -/
def to_unicode (bs : List Nat) : Chars :=
  match decodeAscii bs with
  | some s => s
  | none =>
    match decodeUtf8 bs with
    | some s => s
    | none => decodeLatin9 bs

/- ------------------------------------------------------------------
The numeric reply table (C5), transcribed verbatim from `numeric_events`
in the source, and the command translation done in `IRC._parse_message`:
`cmd = numeric_events.get(cmd, cmd.upper())`.
------------------------------------------------------------------- -/

def numeric_events : List (String × String) := [
  ("001", "welcome"),
  ("002", "yourhost"),
  ("003", "created"),
  ("004", "myinfo"),
  ("005", "featurelist"),
  ("200", "tracelink"),
  ("201", "traceconnecting"),
  ("202", "tracehandshake"),
  ("203", "traceunknown"),
  ("204", "traceoperator"),
  ("205", "traceuser"),
  ("206", "traceserver"),
  ("207", "traceservice"),
  ("208", "tracenewtype"),
  ("209", "traceclass"),
  ("210", "tracereconnect"),
  ("211", "statslinkinfo"),
  ("212", "statscommands"),
  ("213", "statscline"),
  ("214", "statsnline"),
  ("215", "statsiline"),
  ("216", "statskline"),
  ("217", "statsqline"),
  ("218", "statsyline"),
  ("219", "endofstats"),
  ("221", "umodeis"),
  ("231", "serviceinfo"),
  ("232", "endofservices"),
  ("233", "service"),
  ("234", "servlist"),
  ("235", "servlistend"),
  ("241", "statslline"),
  ("242", "statsuptime"),
  ("243", "statsoline"),
  ("244", "statshline"),
  ("250", "luserconns"),
  ("251", "luserclient"),
  ("252", "luserop"),
  ("253", "luserunknown"),
  ("254", "luserchannels"),
  ("255", "luserme"),
  ("256", "adminme"),
  ("257", "adminloc1"),
  ("258", "adminloc2"),
  ("259", "adminemail"),
  ("261", "tracelog"),
  ("262", "endoftrace"),
  ("263", "tryagain"),
  ("265", "n_local"),
  ("266", "n_global"),
  ("300", "none"),
  ("301", "away"),
  ("302", "userhost"),
  ("303", "ison"),
  ("305", "unaway"),
  ("306", "nowaway"),
  ("311", "whoisuser"),
  ("312", "whoisserver"),
  ("313", "whoisoperator"),
  ("314", "whowasuser"),
  ("315", "endofwho"),
  ("316", "whoischanop"),
  ("317", "whoisidle"),
  ("318", "endofwhois"),
  ("319", "whoischannels"),
  ("321", "liststart"),
  ("322", "list"),
  ("323", "listend"),
  ("324", "channelmodeis"),
  ("329", "channelcreate"),
  ("331", "notopic"),
  ("332", "currenttopic"),
  ("333", "topicinfo"),
  ("341", "inviting"),
  ("342", "summoning"),
  ("346", "invitelist"),
  ("347", "endofinvitelist"),
  ("348", "exceptlist"),
  ("349", "endofexceptlist"),
  ("351", "version"),
  ("352", "whoreply"),
  ("353", "namreply"),
  ("361", "killdone"),
  ("362", "closing"),
  ("363", "closeend"),
  ("364", "links"),
  ("365", "endoflinks"),
  ("366", "endofnames"),
  ("367", "banlist"),
  ("368", "endofbanlist"),
  ("369", "endofwhowas"),
  ("371", "info"),
  ("372", "motd"),
  ("373", "infostart"),
  ("374", "endofinfo"),
  ("375", "motdstart"),
  ("376", "endofmotd"),
  ("377", "motd2"),
  ("381", "youreoper"),
  ("382", "rehashing"),
  ("384", "myportis"),
  ("391", "time"),
  ("392", "usersstart"),
  ("393", "users"),
  ("394", "endofusers"),
  ("395", "nousers"),
  ("401", "nosuchnick"),
  ("402", "nosuchserver"),
  ("403", "nosuchchannel"),
  ("404", "cannotsendtochan"),
  ("405", "toomanychannels"),
  ("406", "wasnosuchnick"),
  ("407", "toomanytargets"),
  ("409", "noorigin"),
  ("411", "norecipient"),
  ("412", "notexttosend"),
  ("413", "notoplevel"),
  ("414", "wildtoplevel"),
  ("421", "unknowncommand"),
  ("422", "nomotd"),
  ("423", "noadmininfo"),
  ("424", "fileerror"),
  ("431", "nonicknamegiven"),
  ("432", "erroneusnickname"),
  ("433", "nicknameinuse"),
  ("436", "nickcollision"),
  ("437", "unavailresource"),
  ("441", "usernotinchannel"),
  ("442", "notonchannel"),
  ("443", "useronchannel"),
  ("444", "nologin"),
  ("445", "summondisabled"),
  ("446", "usersdisabled"),
  ("451", "notregistered"),
  ("461", "needmoreparams"),
  ("462", "alreadyregistered"),
  ("463", "nopermforhost"),
  ("464", "passwdmismatch"),
  ("465", "yourebannedcreep"),
  ("466", "youwillbebanned"),
  ("467", "keyset"),
  ("471", "channelisfull"),
  ("472", "unknownmode"),
  ("473", "inviteonlychan"),
  ("474", "bannedfromchan"),
  ("475", "badchannelkey"),
  ("476", "badchanmask"),
  ("477", "nochanmodes"),
  ("478", "banlistfull"),
  ("481", "noprivileges"),
  ("482", "chanoprivsneeded"),
  ("483", "cantkillserver"),
  ("484", "restricted"),
  ("485", "uniqopprivsneeded"),
  ("491", "nooperhost"),
  ("492", "noservicehost"),
  ("501", "umodeunknownflag"),
  ("502", "usersdontmatch")]

/-- `numeric_events.get(cmd, cmd.upper())` from `IRC._parse_message`. -/
def translate_cmd (cmd : Chars) : Chars :=
  match numeric_events.lookup (String.mk cmd) with
  | some v => v.data
  | none => pyUpper cmd

/- ------------------------------------------------------------------
`UserMask` mask parsing and `IRC._parse_message` (C4).
------------------------------------------------------------------- -/

structure Mask where
  nick : Chars
  ident : Chars
  host : Chars
deriving DecidableEq, Repr

/-- Split `s` at the first occurrence of `c` (not included); `none` if `c`
does not occur. -/
def splitFirst (c : Char) : Chars → Option (Chars × Chars)
  | [] => none
  | x :: rest =>
    if x = c then some ([], rest)
    else (splitFirst c rest).map (fun p => (x :: p.1, p.2))

/-- The regex `([^!]+)!([^@]+)@(.+)` applied with `re.match`: nick up to the
first `!` (nonempty), ident up to the first following `@` (nonempty), host the
nonempty rest.  On no match, the whole mask is the nick. -/
def parse_mask (mask : Chars) : Mask :=
  match splitFirst '!' mask with
  | some (a, rest) =>
    if a = [] then ⟨mask, [], []⟩
    else
      match splitFirst '@' rest with
      | some (b, c) =>
        if b = [] ∨ c = [] then ⟨mask, [], []⟩ else ⟨a, b, c⟩
      | none => ⟨mask, [], []⟩
  | none => ⟨mask, [], []⟩

/-- The parameter loop of `_parse_message`: a token starting with `:` (when no
last-parameter is active yet) opens the final parameter, which then absorbs all
remaining tokens re-joined with single spaces. -/
def collect_params : List Chars → Bool → List Chars → List Chars
  | [], _, acc => acc
  | p :: rest, lastF, acc =>
    if lastF then
      collect_params rest true (acc.dropLast ++ [acc.getLast! ++ ' ' :: p])
    else if p.head? = some ':' then
      collect_params rest true (acc ++ [p.drop 1])
    else
      collect_params rest false (acc ++ [p])

/-- `IRC._parse_message` on an already-decoded line: strip CR/LF, split on
single spaces, take an optional `:`-prefixed origin mask, translate the
command, and collect parameters.  `none` models the `IndexError` raised when a
line consists solely of an origin prefix. -/
def parse_message (raw : Chars) : Option (Option Mask × Chars × List Chars) :=
  let toks := pySplit ' ' (pyStrip ['\r', '\n'] raw)
  match toks with
  | [] => none
  | t0 :: rest =>
    let (umask, cmdToks) :=
      if t0.head? = some ':' then (some (parse_mask (t0.drop 1)), rest)
      else (none, t0 :: rest)
    match cmdToks with
    | [] => none
    | cmd :: prms =>
      some (umask, translate_cmd cmd, collect_params prms false [])

/- ------------------------------------------------------------------
`ServerConfig`: the RPL_ISUPPORT capability model.
------------------------------------------------------------------- -/

structure ServerConfig where
  info : List (String × String)
deriving DecidableEq, Repr

/-- The constructor defaults of `ServerConfig.__init__`. -/
def ServerConfig.init : ServerConfig :=
  ⟨[("CHANMODES", "b,k,l,psitnm"),
    ("CHANTYPES", "#"),
    ("PREFIX", "(ov)@+"),
    ("MAXLIST", "beI:10"),
    ("MODES", "3")]⟩

/-- Python dict assignment: replace the value of an existing key in place,
otherwise append the new binding. -/
def dictSet (l : List (String × String)) (k v : String) : List (String × String) :=
  match l with
  | [] => [(k, v)]
  | (k', v') :: rest => if k' = k then (k, v) :: rest else (k', v') :: dictSet rest k v

def ServerConfig.set (sc : ServerConfig) (k v : String) : ServerConfig :=
  ⟨dictSet sc.info k v⟩

/-- `self.info[item]`; the derived properties below only ever read the five
keys installed by the constructor, which are always present (a `featurelist`
event can only overwrite or add), so the `KeyError` default is irrelevant. -/
def ServerConfig.get (sc : ServerConfig) (k : String) : Chars :=
  ((sc.info.lookup k).getD "").data

/-- `chan_prefixes`: the characters of `CHANTYPES`. -/
def chan_prefixes (sc : ServerConfig) : Chars := sc.get "CHANTYPES"

/-- `chan_modes`: `CHANMODES` split on `,` into the four A/B/C/D groups. -/
def chan_modes (sc : ServerConfig) : List Chars := pySplit ',' (sc.get "CHANMODES")

def chan_modes_at (sc : ServerConfig) (i : Nat) : Chars := ((chan_modes sc).get? i).getD []

/-- The key set of `max_lists_entries`: every mode character appearing before
a `:` in a `MAXLIST` token. -/
def max_lists_keys (sc : ServerConfig) : Chars :=
  (pySplit ',' (sc.get "MAXLIST")).flatMap (fun tok =>
    match splitFirst ':' tok with
    | some (modes, _) => modes
    | none => [])

/-- `list_modes`: type-A modes, `max_lists_entries` keys union `chan_modes[0]`. -/
def list_modes (sc : ServerConfig) : Chars := max_lists_keys sc ++ chan_modes_at sc 0

/-- `prefixes`: `PREFIX='(ov)@+'` gives the ordered mode→prefix pairs. -/
def prefixes (sc : ServerConfig) : List (Char × Char) :=
  match splitFirst ')' (sc.get "PREFIX") with
  | some (left, right) => (left.drop 1).zip right
  | none => []

def prefixes_modes (sc : ServerConfig) : Chars := (prefixes sc).map Prod.fst

/-- `param_modes`: type-B modes union the prefix modes. -/
def param_modes (sc : ServerConfig) : Chars := chan_modes_at sc 1 ++ prefixes_modes sc

def param_set_modes (sc : ServerConfig) : Chars := chan_modes_at sc 2

def parseNat : Chars → Option Nat
  | [] => none
  | ds =>
    if ds.all Char.isDigit then
      some (ds.foldl (fun n c => n * 10 + (c.toNat - 48)) 0)
    else none

/-- `max_modes`: `int(self.info['MODES'])`; `none` models the `ValueError` of
`int()` on a malformed value. -/
def max_modes (sc : ServerConfig) : Option Nat := parseNat (sc.get "MODES")

/-- `IRC.is_channel`: `text[0:1] in self.serverconf.chan_prefixes`. -/
def is_channel (sc : ServerConfig) (t : Chars) : Bool :=
  match t.head? with
  | some c => c ∈ chan_prefixes sc
  | none => false

/-- `irc_equals` against the client's own nick. -/
def is_me (myself : Chars) (t : Chars) : Bool := irc_lower t = irc_lower myself

/- ------------------------------------------------------------------
`IRC.parse_modes` (C8): interpret a mode string like `+o-b` against the
capability model, pairing parameter-taking modes with targets.
------------------------------------------------------------------- -/

def parse_modes_go (sc : ServerConfig) (targets : List Chars) :
    Chars → Option Char → Nat → Option (List (Bool × Char × Option Chars))
  | [], _, _ => some []
  | c :: rest, lastSgn, i =>
    if c = '+' ∨ c = '-' then parse_modes_go sc targets rest (some c) i
    else
      match lastSgn with
      | none => none   -- ValueError: modes have to begin with + or -
      | some sgn =>
        let pm := param_modes sc ++ list_modes sc ++
          (if sgn = '+' then param_set_modes sc else [])
        if c ∈ pm then
          match targets.get? i with
          | none => none    -- IndexError on targets[i]
          | some t =>
            (parse_modes_go sc targets rest (some sgn) (i + 1)).map
              (fun r => (sgn = '+', c, some t) :: r)
        else
          (parse_modes_go sc targets rest (some sgn) i).map
            (fun r => (sgn = '+', c, (none : Option Chars)) :: r)

def parse_modes (sc : ServerConfig) (modestr : Chars) (targets : List Chars) :
    Option (List (Bool × Char × Option Chars)) :=
  parse_modes_go sc targets modestr none 0

/- ------------------------------------------------------------------
The callback names fired by `IRC._process_message` (C4).  `myself` is the
client's own nick, `bans` the set of channels present in `self.bans`.
An exception inside processing (e.g. `IndexError` on a missing parameter)
aborts the remaining callbacks; it is modelled by cutting the list short.
------------------------------------------------------------------- -/

def ctcp_split (body : Chars) : Chars × Option Chars :=
  match splitFirst ' ' body with
  | some (n, v) => (n, some v)
  | none => (body, none)

def privmsg_callbacks (sc : ServerConfig) (myself : Chars) (params : List Chars) :
    List String :=
  match params with
  | p0 :: p1 :: _ =>
    if p1.head? = some '\x01' ∧ p1.getLast? = some '\x01' then
      let (name, _value) := ctcp_split ((p1.drop 1).dropLast)
      if name = "ACTION".data then ["on_action"]
      else ["on_ctcp_request", "on_ctcp_" ++ String.mk (pyLower name) ++ "_request"]
    else
      ["on_message"] ++
        (if is_channel sc p0 then ["on_channel_message"]
         else if is_me myself p0 then ["on_private_message"]
         else [])
  | _ => []

def notice_callbacks (sc : ServerConfig) (myself : Chars) (params : List Chars) :
    List String :=
  match params with
  | p0 :: p1 :: _ =>
    if p1.head? = some '\x01' ∧ p1.getLast? = some '\x01' then
      let (name, _value) := ctcp_split ((p1.drop 1).dropLast)
      ["on_ctcp_reply", "on_ctcp_" ++ String.mk (pyLower name) ++ "_reply"]
    else
      ["on_notice"] ++
        (if is_channel sc p0 then ["on_channel_notice"]
         else if is_me myself p0 then ["on_private_notice"]
         else [])
  | _ => []

/-- The `elif` chain of `_process_message` after the generic `on_server_*`
callback.  Branches that only mutate state (`PING`, `NICK`, `featurelist`,
`banlist`, `namreply`, `MODE`) contribute no callbacks. -/
def chain_callbacks (sc : ServerConfig) (myself : Chars) (bans : List Chars)
    (umask : Option Mask) (cmd : Chars) (params : List Chars) : List String :=
  if cmd = "PING".data then []
  else if cmd = "NICK".data ∧ umask ≠ none then []
  else if cmd = "welcome".data then ["on_ready"]
  else if cmd = "featurelist".data then []
  else if cmd = "banlist".data then []
  else if cmd = "endofbanlist".data then
    match params.get? 1 with
    | some chan => if chan ∈ bans then ["on_banlist_received"] else []  -- KeyError otherwise
    | none => []
  else if cmd = "namreply".data then []
  else if cmd = "PRIVMSG".data then privmsg_callbacks sc myself params
  else if cmd = "NOTICE".data ∧ umask ≠ none then notice_callbacks sc myself params
  else if cmd = "MODE".data ∧ umask ≠ none ∧ params.length > 2 ∧
      is_channel sc ((params.head?).getD []) then []
  else
    match umask with
    | some m => if is_me myself m.nick then ["on_self_" ++ String.mk (pyLower cmd)] else []
    | none => []

def process_callbacks (sc : ServerConfig) (myself : Chars) (bans : List Chars)
    (raw : Chars) : List String :=
  match parse_message raw with
  | none => []
  | some (umask, cmd, params) =>
    let scmd := String.mk (pyLower cmd)
    let struct : List String × Bool :=
      if cmd = "JOIN".data ∨ cmd = "PART".data ∨ cmd = "KICK".data then
        let pre := ["on_pre_server_" ++ scmd]
        if params.head? = none then (pre, true)             -- IndexError on params[0]
        else if cmd = "KICK".data then
          if params.get? 1 = none then (pre, true)          -- IndexError on params[1]
          else (pre, false)
        else if umask = none then (pre, true)               -- None has no .user
        else (pre, false)
      else if cmd = "QUIT".data then
        if umask = none then ([], true) else ([], false)
      else ([], false)
    if struct.2 then struct.1
    else
      struct.1 ++ ["on_server_" ++ scmd] ++ chain_callbacks sc myself bans umask cmd params

/- ------------------------------------------------------------------
Outbound framing: `IRC._get_prefix` and `IRC.send` (C6, C10).
------------------------------------------------------------------- -/

/-- The parameter-validation and accumulation loop of `_get_prefix`: empty
parameters are skipped, parameters with CR/LF, spaces, or a leading `:`
raise `ValueError`; the trailing space is removed at the end. -/
def get_prefix_go (acc : Chars) : List Chars → Except String Chars
  | [] => .ok acc.dropLast
  | p :: rest =>
    if p = [] then get_prefix_go acc rest
    else if '\n' ∈ p ∨ '\r' ∈ p then .error "newlines not allowed in parameters"
    else if ' ' ∈ p ∨ p.head? = some ':' then .error "space or colon at start of non-last argument"
    else get_prefix_go (acc ++ p ++ [' ']) rest

def get_prefix_params (params : List Chars) : Except String Chars :=
  get_prefix_go [] params

/-- The last-parameter cleanup in `IRC.send`:
`' '.join(x.strip('\r') for x in last.split('\n'))`. -/
def clean_last (last : Chars) : Chars :=
  pyJoin ' ' ((pySplit '\n' last).map (pyStrip ['\r']))

/-- `IRC.send`: build the single raw line that is written to the wire, or the
`ValueError` raised by `_get_prefix` before anything is written. -/
def send_line (params : List Chars) (last : Chars) : Except String Chars :=
  match get_prefix_params params with
  | .error e => .error e
  | .ok pre =>
    let l := clean_last last
    .ok (if l ≠ [] then pre ++ ' ' :: ':' :: l else pre)

/-- `IRC.join`: `self.send('JOIN', channel, password)` with `password=''` by
default. -/
def join_line (channel password : Chars) : Except String Chars :=
  send_line ["JOIN".data, channel, password] []

/- ------------------------------------------------------------------
`NormalizedDict`/`IrcDict` and the user registry (C7, C8).
`data` maps the originally-used raw key to the value, `map` maps the
case-folded key to the raw key, exactly as in the source.  A `User`
object from the Python heap is modelled as a numeric identity `uid`
into a heap association list, so that "the very same object" is
expressible.
------------------------------------------------------------------- -/

def ircLowerS (s : String) : String := String.mk (irc_lower s.data)

def alSet {α : Type} (l : List (String × α)) (k : String) (v : α) : List (String × α) :=
  match l with
  | [] => [(k, v)]
  | (k', v') :: rest => if k' = k then (k, v) :: rest else (k', v') :: alSet rest k v

def alDel {α : Type} (l : List (String × α)) (k : String) : List (String × α) :=
  l.filter (fun e => e.1 ≠ k)

structure NDict (α : Type) where
  data : List (String × α) := []
  map : List (String × String) := []
deriving DecidableEq, Repr

def NDict.contains {α : Type} (d : NDict α) (k : String) : Bool :=
  (d.map.lookup (ircLowerS k)).isSome

def NDict.get? {α : Type} (d : NDict α) (k : String) : Option α :=
  match d.map.lookup (ircLowerS k) with
  | some raw => d.data.lookup raw
  | none => none

def NDict.set {α : Type} (d : NDict α) (k : String) (v : α) : NDict α :=
  match d.map.lookup (ircLowerS k) with
  | some raw => { d with data := alSet d.data raw v }
  | none => ⟨alSet d.data k v, alSet d.map (ircLowerS k) k⟩

def NDict.del {α : Type} (d : NDict α) (k : String) : NDict α :=
  match d.map.lookup (ircLowerS k) with
  | some raw => ⟨alDel d.data raw, alDel d.map (ircLowerS k)⟩
  | none => d   -- KeyError; every call site below is guarded

/-- `NormalizedDict.rename_key`: `val = self[oldkey]; del self[oldkey];
self[newkey] = val`. -/
def NDict.rename_key {α : Type} (d : NDict α) (oldk newk : String) : NDict α :=
  match d.get? oldk with
  | none => d   -- KeyError
  | some v => (d.del oldk).set newk v

structure User where
  nick : String
  ident : String := ""
  host : String := ""
  channels : NDict Chars := {}
  deleted : Bool := false
deriving DecidableEq, Repr

structure Tracker where
  users : NDict Nat := {}
  heap : List (Nat × User) := []
  fresh : Nat := 0
deriving DecidableEq, Repr

def heapGet (h : List (Nat × User)) (uid : Nat) : Option User := h.lookup uid

def heapSet (h : List (Nat × User)) (uid : Nat) (u : User) : List (Nat × User) :=
  match h with
  | [] => [(uid, u)]
  | (k, v) :: rest => if k = uid then (uid, u) :: rest else (k, v) :: heapSet rest uid u

/-- `UserMask.__init__` resolution against the registry: a known nick is
looked up (refreshing host, and ident when previously unknown), an unknown
nick creates and registers a fresh `User`. -/
def resolve_mask (tr : Tracker) (mask : Chars) : Tracker × Nat :=
  let m := parse_mask mask
  let nickS := String.mk m.nick
  match tr.users.get? nickS with
  | some uid =>
    match heapGet tr.heap uid with
    | some u =>
      let u := if m.host ≠ [] ∧ String.mk m.host ≠ u.host then { u with host := String.mk m.host } else u
      let u := if m.ident ≠ [] ∧ u.ident = "" then { u with ident := String.mk m.ident } else u
      ({ tr with heap := heapSet tr.heap uid u }, uid)
    | none => (tr, uid)   -- unreachable: registry values always have heap entries
  | none =>
    let uid := tr.fresh
    (⟨tr.users.set nickS uid,
      heapSet tr.heap uid ⟨nickS, String.mk m.ident, String.mk m.host, {}, false⟩,
      uid + 1⟩, uid)

/-- `User.joined`: no-op on deleted users and on already-joined channels,
otherwise install an empty mode set for the channel. -/
def user_joined (tr : Tracker) (uid : Nat) (chan : String) : Tracker :=
  match heapGet tr.heap uid with
  | none => tr
  | some u =>
    if u.deleted then tr
    else if u.channels.contains chan then tr
    else { tr with heap := heapSet tr.heap uid { u with channels := u.channels.set chan [] } }

/-- The `NICK` branch of `_process_message`: `oldnick = umask.user.nick;
self.users.rename_key(oldnick, newnick); umask.user.nick = newnick`.
`uid` stands for the `umask.user` object reference. -/
def nick_change (tr : Tracker) (uid : Nat) (newnick : String) : Tracker :=
  match heapGet tr.heap uid with
  | none => tr
  | some u =>
    { tr with
      users := tr.users.rename_key u.nick newnick,
      heap := heapSet tr.heap uid { u with nick := newnick } }

/-- The membership test of the `MODE` branch:
`mode in (prefixes_modes | list_modes - set(max_lists_entries))`
(`-` binds tighter than `|` in Python). -/
def mode_touches_user (sc : ServerConfig) (mode : Char) : Bool :=
  mode ∈ prefixes_modes sc ∨ (mode ∈ list_modes sc ∧ mode ∉ max_lists_keys sc)

def setAdd (s : Chars) (c : Char) : Chars := if c ∈ s then s else s ++ [c]

/-- One parsed `(add, mode, value)` triple of the `MODE` branch.  `none`
models the exceptions (`str(None)` resolution for a valueless mode, or
`KeyError` from `modes_in` for a user without that channel). -/
def apply_mode_triple (sc : ServerConfig) (chan : String) (tr : Tracker) :
    Bool × Char × Option Chars → Option Tracker
  | (add, mode, value) =>
    if mode_touches_user sc mode then
      match value with
      | none => none
      | some v =>
        let r := resolve_mask tr v
        let tr := r.1
        match heapGet tr.heap r.2 with
        | none => none
        | some u =>
          match u.channels.get? chan with
          | none => none    -- KeyError in modes_in
          | some ms =>
            let ms' := if add then setAdd ms mode
                       else if mode ∈ ms then ms.erase mode else ms
            let u' := { u with channels := u.channels.set chan ms' }
            some { tr with heap := heapSet tr.heap r.2 u' }
    else some tr

def apply_mode_triples (sc : ServerConfig) (chan : String) (tr : Tracker) :
    List (Bool × Char × Option Chars) → Option Tracker
  | [] => some tr
  | t :: rest =>
    match apply_mode_triple sc chan tr t with
    | none => none
    | some tr' => apply_mode_triples sc chan tr' rest

/-- One token of the `featurelist` (005) branch: `NAME=VALUE` sets the entry,
anything else (no `=` or several) sets the whole token to `True`. -/
def apply_feature (sc : ServerConfig) (param : Chars) : ServerConfig :=
  match pySplit '=' param with
  | [n, v] => sc.set (String.mk n) (String.mk v)
  | _ => sc.set (String.mk param) "True"

/- ------------------------------------------------------------------
`IRC.set_modes` (C1): sort the requested changes by
`(not bool(val), name, val)` (Python's stable sort), then batch them
greedily under the 450-byte budget and the `max_modes` cap.
------------------------------------------------------------------- -/

/-- A mode-change argument: a bare string like `'-k'` or a pair like
`('+o', 'Foo')`. -/
inductive PyMode
  | s (name : Chars)
  | p (name : Chars) (val : Chars)
deriving DecidableEq, Repr

def PyMode.name : PyMode → Chars
  | .s n => n
  | .p n _ => n

def PyMode.val : PyMode → Chars
  | .s _ => []
  | .p _ v => v

/-- Lexicographic comparison of strings by code point, as Python `<`. -/
def strLt : Chars → Chars → Bool
  | [], [] => false
  | [], _ :: _ => true
  | _ :: _, [] => false
  | a :: as, b :: bs => if a = b then strLt as bs else a < b

/-- The `_key` comparator of `set_modes`: `(not bool(val), name, val)` under
Python tuple ordering (`False < True`, strings by code point). -/
def keyLt (a b : PyMode) : Bool :=
  let av := a.val.isEmpty
  let bv := b.val.isEmpty
  if av ≠ bv then bv
  else if a.name ≠ b.name then strLt a.name b.name
  else strLt a.val b.val

def sortInsert (x : PyMode) : List PyMode → List PyMode
  | [] => [x]
  | b :: bs => if keyLt b x then b :: sortInsert x bs else x :: b :: bs

/-- Stable sort by `keyLt` (insertion sort; stable sorts by a total preorder
are unique, so this agrees with Python's `sorted`). -/
def pySortModes : List PyMode → List PyMode
  | [] => []
  | x :: xs => sortInsert x (pySortModes xs)

def join_sp (l : List Chars) : Chars := pyJoin ' ' l

/-- The inner batching loop of `set_modes`: returns the accumulated
`modenames`, `modevals`, the changes consumed into this command, and the
remaining changes.  `none` models the `IndexError` on `name[0]` for an empty
mode name. -/
def set_modes_inner (target : Chars) (maxModes : Nat) :
    List PyMode → Nat → Option Char → Chars → List Chars →
    Option (Chars × List Chars × List PyMode × List PyMode)
  | [], _, _, mn, mv => some (mn, mv, [], [])
  | x :: rest, i, curSign, mn, mv =>
    if target.length + mn.length + (join_sp mv).length < 450 ∧ i < maxModes then
      match x.name with
      | [] => none
      | s0 :: srest =>
        let sgn := if curSign ≠ some s0 then some s0 else curSign
        let mn := (if curSign ≠ some s0 then mn ++ [s0] else mn) ++ srest
        let mv := if x.val ≠ [] then mv ++ [x.val] else mv
        (set_modes_inner target maxModes rest (i + 1) sgn mn mv).map
          (fun r => (r.1, r.2.1, x :: r.2.2.1, r.2.2.2))
    else some (mn, mv, [], x :: rest)

/-- One emitted `MODE` command: `self.send('MODE', target, modenames,
*modevals)`, together with the slice of sorted changes it covers. -/
structure ModeCmd where
  modenames : Chars
  modevals : List Chars
  batch : List PyMode
deriving DecidableEq, Repr

/-- The outer `while j < len(m)` loop.  The Python loop does not terminate
when a batch makes no progress (`max_modes == 0` or an over-long target);
`none` models that divergence via fuel exhaustion. -/
def set_modes_loop (target : Chars) (maxModes : Nat) :
    Nat → List PyMode → Option (List ModeCmd)
  | _, [] => some []
  | 0, _ :: _ => none
  | fuel + 1, x :: rest =>
    match set_modes_inner target maxModes (x :: rest) 0 none [] [] with
    | none => none
    | some (mn, mv, batch, rem) =>
      (set_modes_loop target maxModes fuel rem).map (fun cmds => ⟨mn, mv, batch⟩ :: cmds)

def set_modes (target : Chars) (maxModes : Nat) (modes : List PyMode) :
    Option (List ModeCmd) :=
  let m := pySortModes modes
  set_modes_loop target maxModes m.length m

/- ------------------------------------------------------------------
The `Tags` styled-text model (C2, C3): chunks, serialization
(`ChunkList.to_string`), parsing (`Tags.parse`), word/line splitting and
the wrapping loop of `IRC.send_multi`.
------------------------------------------------------------------- -/

inductive Color
  | white | black | blue | green | red | brown | purple | orange
  | yellow | ltgreen | teal | cyan | ltblue | pink | grey | ltgrey
deriving DecidableEq, Repr

/-- The `Tags.colors` table: color name to two-digit code. -/
def color_code : Color → Chars
  | .white => ['0', '0']
  | .black => ['0', '1']
  | .blue => ['0', '2']
  | .green => ['0', '3']
  | .red => ['0', '4']
  | .brown => ['0', '5']
  | .purple => ['0', '6']
  | .orange => ['0', '7']
  | .yellow => ['0', '8']
  | .ltgreen => ['0', '9']
  | .teal => ['1', '0']
  | .cyan => ['1', '1']
  | .ltblue => ['1', '2']
  | .pink => ['1', '3']
  | .grey => ['1', '4']
  | .ltgrey => ['1', '5']

/-- `color_name_by_code`: numeric code back to the color name; `none` models
the `ValueError` raised by `.index` for an unknown code. -/
def color_by_code (n : Nat) : Option Color :=
  if n = 0 then some .white
  else if n = 1 then some .black
  else if n = 2 then some .blue
  else if n = 3 then some .green
  else if n = 4 then some .red
  else if n = 5 then some .brown
  else if n = 6 then some .purple
  else if n = 7 then some .orange
  else if n = 8 then some .yellow
  else if n = 9 then some .ltgreen
  else if n = 10 then some .teal
  else if n = 11 then some .cyan
  else if n = 12 then some .ltblue
  else if n = 13 then some .pink
  else if n = 14 then some .grey
  else if n = 15 then some .ltgrey
  else none

/-- The active format tags of a chunk (a subset of the `Tags.formats` keys). -/
structure Fmts where
  reset : Bool := false
  uncolor : Bool := false
  bold : Bool := false
  underline : Bool := false
  reverse : Bool := false
deriving DecidableEq, Repr

def fmtXor (a b : Fmts) : Fmts :=
  ⟨xor a.reset b.reset, xor a.uncolor b.uncolor, xor a.bold b.bold,
   xor a.underline b.underline, xor a.reverse b.reverse⟩

def fmtUnion (a b : Fmts) : Fmts :=
  ⟨a.reset || b.reset, a.uncolor || b.uncolor, a.bold || b.bold,
   a.underline || b.underline, a.reverse || b.reverse⟩

/-- `tags - {'reset', 'uncolor'}`. -/
def minusRU (a : Fmts) : Fmts := { a with reset := false, uncolor := false }

/-- Emission of a set of format codes.  The Python source iterates over a
`set`, whose order is unspecified; this embedding fixes the insertion order of
the `Tags.formats` dict (reset, uncolor, bold, underline, reverse). -/
def fmt_codes (d : Fmts) : Chars :=
  (if d.reset then ['\x0F'] else []) ++
  (if d.uncolor then ['\x03'] else []) ++
  (if d.bold then ['\x02'] else []) ++
  (if d.underline then ['\x1F'] else []) ++
  (if d.reverse then ['\x16'] else [])

structure Chunk where
  text : Chars := []
  fgcolor : Option Color := none
  bgcolor : Option Color := none
  tags : Fmts := {}
deriving DecidableEq, Repr

/-- `Tags.colors[chunk.fgcolor]`.  For `none` the Python lookup
`Tags.colors['']` would raise `KeyError`; that path is unreachable because a
background color is only ever installed together with a foreground color. -/
def opt_color_code : Option Color → Chars
  | some c => color_code c
  | none => []

def digit_or_comma : Option Char → Bool
  | some c => c.isDigit || c = ','
  | none => false

/-- The serializer state `(fg, bg, tags)` threaded through
`ChunkList.to_string`. -/
structure TState where
  fg : Option Color := none
  bg : Option Color := none
  tags : Fmts := {}
deriving DecidableEq, Repr

/-- The color-transition part of one `to_string` chunk, given the (possibly
just cleared) running colors `fg`, `bg`. -/
def colorPart (fg bg : Option Color) (c : Chunk) : Chars :=
  if (fg, bg) ≠ (c.fgcolor, c.bgcolor) then
    ['\x03'] ++
    (if c.fgcolor.isSome || c.bgcolor.isSome then opt_color_code c.fgcolor else []) ++
    (if c.bgcolor.isSome && bg ≠ c.bgcolor then ',' :: opt_color_code c.bgcolor else [])
  else []

/-- The `ret.endswith('\x03')` digit/comma workaround of `to_string`. -/
def workaround (ret t : Chars) : Chars :=
  if ret.getLast? = some '\x03' ∧ digit_or_comma t.head? then ['\x02', '\x02'] else []

/-- One chunk of `ChunkList.to_string`: emit the symmetric difference of the
format tags, then the color transition, then the bare-`\x03` digit
workaround, then the text. -/
def to_string_step (acc : Chars × TState) (c : Chunk) : Chars × TState :=
  let st := acc.2
  let d := fmtXor st.tags c.tags
  let fg := if d.reset || d.uncolor then none else st.fg
  let bg := if d.reset || d.uncolor then none else st.bg
  let ret := acc.1 ++ fmt_codes d ++ colorPart fg bg c
  (ret ++ workaround ret c.text ++ c.text, ⟨c.fgcolor, c.bgcolor, minusRU c.tags⟩)

/-- `ChunkList.to_string(end)`; `str(chunklist)` is `to_string true`. -/
def to_string (ed : Bool) (cs : List Chunk) : Chars :=
  let r := cs.foldl to_string_step ([], {})
  if ed then
    r.1 ++ (if r.2.fg.isSome || r.2.bg.isSome then ['\x03'] else []) ++
      fmt_codes (minusRU r.2.tags)
  else r.1

/- `Tags.parse`. -/

inductive Fmt
  | reset | uncolor | bold | underline | reverse
deriving DecidableEq, Repr

/-- `format_name_by_code`. -/
def format_of_code (c : Char) : Option Fmt :=
  if c = '\x0F' then some .reset
  else if c = '\x03' then some .uncolor
  else if c = '\x02' then some .bold
  else if c = '\x1F' then some .underline
  else if c = '\x16' then some .reverse
  else none

/-- Toggle membership of a format in a tag set (`add`/`remove`). -/
def fmtToggle (t : Fmts) : Fmt → Fmts
  | .reset => { t with reset := !t.reset }
  | .uncolor => { t with uncolor := !t.uncolor }
  | .bold => { t with bold := !t.bold }
  | .underline => { t with underline := !t.underline }
  | .reverse => { t with reverse := !t.reverse }

/-- Up to `n` leading decimal digits (`\d{1,2}` is `takeDigits 2`). -/
def takeDigits : Nat → Chars → Chars × Chars
  | 0, s => ([], s)
  | _ + 1, [] => ([], [])
  | n + 1, c :: rest =>
    if c.isDigit then
      let r := takeDigits n rest
      (c :: r.1, r.2)
    else ([], c :: rest)

/-- The `RE_COLOR` match `\x03(\d{1,2})?(?:,(\d{1,2})?)?` applied just after
the `\x03`: the two optional digit groups and the unconsumed remainder (the
comma is consumed even when no digits follow it). -/
def match_color (rest : Chars) : Option Chars × Option Chars × Chars :=
  if (takeDigits 2 rest).2.head? = some ',' then
    ((if (takeDigits 2 rest).1 = [] then none else some (takeDigits 2 rest).1),
     (if (takeDigits 2 (takeDigits 2 rest).2.tail).1 = [] then none
      else some (takeDigits 2 (takeDigits 2 rest).2.tail).1),
     (takeDigits 2 (takeDigits 2 rest).2.tail).2)
  else
    ((if (takeDigits 2 rest).1 = [] then none else some (takeDigits 2 rest).1), none,
     (takeDigits 2 rest).2)

def digitsNat (ds : Chars) : Nat :=
  ds.foldl (fun n c => n * 10 + (c.toNat - 48)) 0

/-- The character loop of `Tags.parse`.  `none` models the `ValueError`
raised for a numeric color code with no entry in the color table.  Every
step consumes at least one character but exactly one unit of fuel, so
`fuel = text.length` always suffices (the fuel only makes the recursion
structural; the `none` of the `0, _ :: _` case is unreachable from
`parse`). -/
def parse_go : Nat → Chars → List Chunk → Chunk → Option (List Chunk)
  | _, [], chunks, chunk => some (chunks ++ [chunk])
  | 0, _ :: _, _, _ => none
  | fuel + 1, c :: rest, chunks0, chunk0 =>
    match format_of_code c with
    | none => parse_go fuel rest chunks0 { chunk0 with text := chunk0.text ++ [c] }
    | some f =>
      let fl : List Chunk × Chunk :=
        if chunk0.text ≠ [] then
          (chunks0 ++ [chunk0],
           { text := [], fgcolor := chunk0.fgcolor, bgcolor := chunk0.bgcolor,
             tags := minusRU chunk0.tags })
        else (chunks0, chunk0)
      let chunks := fl.1
      let chunk := fl.2
      match f with
      | .reset =>
        let chunk : Chunk := { chunk with fgcolor := none, bgcolor := none, tags := {} }
        parse_go fuel rest chunks { chunk with tags := fmtToggle chunk.tags .reset }
      | .uncolor =>
        match match_color rest with
        | (some fgd, bgd?, r2) =>
          match color_by_code (digitsNat fgd) with
          | none => none
          | some col =>
            let chunk := { chunk with fgcolor := some col }
            match bgd? with
            | some bgd =>
              match color_by_code (digitsNat bgd) with
              | none => none
              | some bcol => parse_go fuel r2 chunks { chunk with bgcolor := some bcol }
            | none => parse_go fuel r2 chunks chunk
        | (none, _, r2) =>
          parse_go fuel r2 chunks
            { chunk with fgcolor := none, bgcolor := none,
                         tags := { chunk.tags with uncolor := true } }
      | .bold => parse_go fuel rest chunks { chunk with tags := fmtToggle chunk.tags .bold }
      | .underline => parse_go fuel rest chunks { chunk with tags := fmtToggle chunk.tags .underline }
      | .reverse => parse_go fuel rest chunks { chunk with tags := fmtToggle chunk.tags .reverse }

def parse (text : Chars) : Option (List Chunk) := parse_go text.length text [] {}

/- `ChunkList.split_words` and `ChunkList.split_lines`. -/

def split_words (cs : List Chunk) : List Chunk :=
  cs.flatMap (fun c =>
    let ws := pySplit ' ' c.text
    ws.enum.map (fun iw =>
      { c with text := if iw.1 = ws.length - 1 then iw.2 else iw.2 ++ [' '] }))

def split_lines_chunk (c : Chunk) (acc : List (List Chunk) × List Chunk) :
    List (List Chunk) × List Chunk :=
  (pySplit '\n' c.text).enum.foldl
    (fun (a : List (List Chunk) × List Chunk) il =>
      if il.1 > 0 then
        (a.1 ++ [a.2], [{ c with text := il.2, tags := minusRU c.tags }])
      else
        (a.1, a.2 ++ [{ c with text := il.2 }]))
    acc

def split_lines (cs : List Chunk) : List (List Chunk) :=
  let r := cs.foldl
    (fun (a : List (List Chunk) × List Chunk) c =>
      if '\n' ∉ c.text then (a.1, a.2 ++ [c]) else split_lines_chunk c a)
    ([], [])
  r.1 ++ [r.2]

/- The wrapping loop of `IRC.send_multi` (`no_break=False`). -/

def tsLen (cs : List Chunk) : Int := ((to_string true cs).length : Int)

/-- The `for complete_chunks in range(nb_chunks, 0, -1)` fitting loop: the
largest prefix of `next` whose `str()` fits into `maxLimit`, else `(1, length
of the single-chunk prefix)`. -/
def fit_go (maxLimit : Int) (next : List Chunk) : Nat → Nat × Int
  | 0 => (1, tsLen (next.take 1))
  | k + 1 =>
    let len := tsLen (next.take (k + 1))
    if len ≤ maxLimit then (k + 1, len) else fit_go maxLimit next k

def fit_chunks (maxLimit : Int) (next : List Chunk) : Nat × Int :=
  fit_go maxLimit next next.length

/-- The `while next_chunks:` loop for one logical line: emit `to_string
false` of the fitted prefix, chopping the first chunk when even one chunk
does not fit.  The Python loop does not terminate when chopping cannot make
progress (budget smaller than the chunk's formatting codes); fuel exhaustion
(`none`) models that divergence. -/
def wrap_line (maxLimit : Int) : Nat → List Chunk → Option (List Chars)
  | _, [] => some []
  | 0, _ :: _ => none
  | fuel + 1, c :: rest =>
    let f := fit_chunks maxLimit (c :: rest)
    if f.2 > maxLimit then
      let toChop := (f.2 - maxLimit).toNat
      let half1 := { c with text := c.text.take (c.text.length - toChop) }
      let half2 := { c with text := c.text.drop (c.text.length - toChop) }
      let line := to_string false [half1]
      (wrap_line maxLimit fuel (half2 :: rest)).map (fun ls => line :: ls)
    else
      let line := to_string false ((c :: rest).take f.1)
      (wrap_line maxLimit fuel ((c :: rest).drop f.1)).map (fun ls => line :: ls)

/-- The whole no-break-disabled path of `send_multi`: split the chunk list
into words, then logical lines, then wrap each logical line under
`450 - len(prefix)`. -/
def send_multi_wrapped (pfxLen : Nat) (cl : List Chunk) (fuel : Nat) :
    Option (List Chars) :=
  let maxLimit : Int := 450 - (pfxLen : Int)
  (split_lines (split_words cl)).foldr
    (fun line acc =>
      match acc with
      | none => none
      | some ls =>
        match wrap_line maxLimit fuel line with
        | none => none
        | some ls' => some (ls' ++ ls))
    (some [])

/- The public composition API of `Tags` (C2): keyword application
`Tags.<Colors/Formats>(value)` and `+` concatenation. -/

inductive TExpr
  | txt (s : Chars)
  | tag (fg bg : Option Color) (fs : Fmts) (e : TExpr)
  | cat (a b : TExpr)
deriving DecidableEq, Repr

/-- The per-child normalization of `ChunkList.__init__`: inherit the tag's
colors unless the child carries `reset`/`uncolor`, then union in the tag's
formats. -/
def apply_tag (fg bg : Option Color) (fs : Fmts) (c : Chunk) : Chunk :=
  let c :=
    if c.tags.reset || c.tags.uncolor then c
    else { c with fgcolor := if c.fgcolor.isSome then c.fgcolor else fg,
                  bgcolor := if c.bgcolor.isSome then c.bgcolor else bg }
  { c with tags := fmtUnion c.tags fs }

/-- Evaluate a composition-API expression to its chunk list. -/
def evalT : TExpr → List Chunk
  | .txt s => [{ text := s }]
  | .tag fg bg fs e => (evalT e).map (apply_tag fg bg fs)
  | .cat a b => evalT a ++ evalT b

/- ------------------------------------------------------------------
The restricted styled-text class for the round-trip analysis (C2):
texts free of the five mIRC control codes, formats restricted to the
toggles bold/underline/reverse, no colors.
------------------------------------------------------------------- -/

/-- No character of `s` is one of the five mIRC format codes. -/
def ctrl_free (s : Chars) : Bool := s.all (fun c => (format_of_code c).isNone)

/-- Only the toggle formats bold/underline/reverse, not reset/uncolor. -/
def toggle_only (f : Fmts) : Bool := !f.reset && !f.uncolor

/-- Styled text built from the public `Tags` composition API using only the
Bold/Underline/Reverse keywords, applied to nonempty control-free strings. -/
inductive PlainToggle : TExpr → Prop
  | txt {s : Chars} : s ≠ [] → ctrl_free s = true → PlainToggle (.txt s)
  | tag {fs : Fmts} {e : TExpr} : toggle_only fs = true → PlainToggle e →
      PlainToggle (.tag none none fs e)
  | cat {a b : TExpr} : PlainToggle a → PlainToggle b → PlainToggle (.cat a b)

/-- The chunk-level invariant satisfied by `evalT` of a `PlainToggle`
expression. -/
def PChunk (c : Chunk) : Prop :=
  c.text ≠ [] ∧ ctrl_free c.text = true ∧ c.fgcolor = none ∧ c.bgcolor = none ∧
  toggle_only c.tags = true

/-- Like `PChunk` but allowing an empty text (the serializer reduction also
covers the parser's trailing empty chunk). -/
def RChunk (c : Chunk) : Prop :=
  ctrl_free c.text = true ∧ c.fgcolor = none ∧ c.bgcolor = none ∧
  toggle_only c.tags = true

/-- `to_string` specialised to colorless, control-free, toggle-only chunk
lists: emit the tag difference, then the text. -/
def sgo (T : Fmts) : List Chunk → Chars
  | [] => []
  | c :: cs => fmt_codes (fmtXor T c.tags) ++ c.text ++ sgo (minusRU c.tags) cs

def lastTags (T : Fmts) : List Chunk → Fmts
  | [] => T
  | c :: cs => lastTags (minusRU c.tags) cs

/-- The text-independent leading part of a single chunk's serialization
(format codes, color transition, digit workaround): `to_string false [c] =
singleA c ++ c.text`. -/
def singleA (c : Chunk) : Chars :=
  let base := fmt_codes (fmtXor {} c.tags) ++ colorPart none none c
  base ++ workaround base c.text

/-- The closing part appended by `to_string true` after a single chunk. -/
def singleE (c : Chunk) : Chars :=
  (if c.fgcolor.isSome || c.bgcolor.isSome then ['\x03'] else []) ++
  fmt_codes (minusRU (minusRU c.tags))

/- ------------------------------------------------------------------
Concrete states used by witnesses and counterexamples.
------------------------------------------------------------------- -/

/-- The capability state after the feature token `CHANMODES=b,k,l,psitnm`
(with the default `PREFIX`/`MAXLIST` untouched). -/
def confChanModes : ServerConfig := apply_feature ServerConfig.init "CHANMODES=b,k,l,psitnm".data

/-- A tracker holding the single registered user `Foo` (uid 0). -/
def trFoo : Tracker := (resolve_mask {} "Foo".data).1

/-- A tracker where `alice` (uid 0) is registered and has joined `#chan`. -/
def trAlice : Tracker :=
  let r := resolve_mask {} "alice".data
  user_joined r.1 r.2 "#chan"

/- ==================================================================
THEOREMS
================================================================== -/

/- C9 -/

theorem utf8_decode_one_low (b : Nat) (bs : List Nat) (hb : b < 0x80) :
    utf8_decode_one b bs = some (Char.ofNat b, bs) := by
  unfold utf8_decode_one
  rw [if_pos hb]

theorem decodeAscii_decodeUtf8 (bs : List Nat) :
    ∀ s : Chars, decodeAscii bs = some s → decodeUtf8 bs = some s := by
  unfold decodeUtf8
  induction bs with
  | nil => intro s h; exact h
  | cons b rest ih =>
    intro s h
    have ha : decodeAscii (b :: rest) =
        if b < 0x80 then (decodeAscii rest).map (fun r => Char.ofNat b :: r) else none := rfl
    rw [ha] at h
    by_cases hb : b < 0x80
    · rw [if_pos hb] at h
      cases hr : decodeAscii rest with
      | none => rw [hr] at h; cases h
      | some s' =>
        rw [hr, Option.map_some'] at h
        simp only [List.length_cons, decodeUtf8_go, utf8_decode_one_low b rest hb]
        rw [ih s' hr, Option.map_some']
        exact h
    · rw [if_neg hb] at h
      cases h

/-- C9: for every byte string, the incoming decoder `to_unicode` returns a
string without failing; trying `ascii` before `utf-8` (as the code does) is
the same as decoding UTF-8 first and falling back to the total lossy
`iso-8859-15` decoder, as the spec describes. -/
theorem C9_decoder_total_and_utf8_first (bs : List Nat) :
    to_unicode bs =
      (match decodeUtf8 bs with
       | some s => s
       | none => decodeLatin9 bs) := by
  unfold to_unicode
  cases ha : decodeAscii bs with
  | some s => rw [decodeAscii_decodeUtf8 bs s ha]
  | none => rfl

/- C5 -/

/-- C5: a 3-digit numeric command present in `numeric_events` is translated
to its symbolic lowercase name (in particular `001`, `353`, `367`); any
command absent from the table is uppercased; and every table key is a
3-digit numeric. -/
theorem C5_numeric_reply_translation :
    translate_cmd "001".data = "welcome".data ∧
    translate_cmd "353".data = "namreply".data ∧
    translate_cmd "367".data = "banlist".data ∧
    (∀ cmd v, numeric_events.lookup (String.mk cmd) = some v → translate_cmd cmd = v.data) ∧
    (∀ cmd, numeric_events.lookup (String.mk cmd) = none → translate_cmd cmd = pyUpper cmd) ∧
    numeric_events.all (fun kv => kv.1.length = 3 && kv.1.data.all Char.isDigit) = true := by
  refine ⟨by decide, by decide, by decide, ?_, ?_, by decide⟩
  · intro cmd v h
    simp [translate_cmd, h]
  · intro cmd h
    simp [translate_cmd, h]

theorem C5_witness :
    translate_cmd "005".data = "featurelist".data ∧
    translate_cmd "privmsg".data = pyUpper "privmsg".data :=
  ⟨C5_numeric_reply_translation.2.2.2.1 "005".data "featurelist" (by decide),
   C5_numeric_reply_translation.2.2.2.2.1 "privmsg".data (by decide)⟩

/- C10 -/

theorem get_prefix_go_filter (params : List Chars) : ∀ acc : Chars,
    get_prefix_go acc params = get_prefix_go acc (params.filter (fun p => !p.isEmpty)) := by
  induction params with
  | nil => intro acc; rfl
  | cons p rest ih =>
    intro acc
    by_cases hp : p = []
    · subst hp
      have h1 : get_prefix_go acc ([] :: rest) = get_prefix_go acc rest := rfl
      have h2 : List.filter (fun q : Chars => !q.isEmpty) ([] :: rest) =
          List.filter (fun q : Chars => !q.isEmpty) rest := rfl
      rw [h1, h2]
      exact ih acc
    · have hpe : (!p.isEmpty) = true := by
        cases p
        · exact absurd rfl hp
        · rfl
      simp only [List.filter_cons]
      rw [if_pos hpe]
      simp only [get_prefix_go]
      rw [if_neg hp, if_neg hp]
      by_cases h1 : '\n' ∈ p ∨ '\r' ∈ p
      · rw [if_pos h1, if_pos h1]
      · rw [if_neg h1, if_neg h1]
        by_cases h2 : ' ' ∈ p ∨ p.head? = some ':'
        · rw [if_pos h2, if_pos h2]
        · rw [if_neg h2, if_neg h2]
          exact ih _

/-- C10: an empty non-last parameter is silently omitted by `_get_prefix`
(neither rejected nor serialized), so `join(channel)` with the default empty
password sends `JOIN <channel>` with exactly one parameter. -/
theorem C10_empty_params_omitted :
    (∀ params : List Chars, get_prefix_params params =
        get_prefix_params (params.filter (fun p => !p.isEmpty))) ∧
    join_line "#chan".data [] = .ok "JOIN #chan".data :=
  ⟨fun params => get_prefix_go_filter params [], by decide⟩

/- C6 -/

theorem get_prefix_go_error (params : List Chars) : ∀ (acc p : Chars), p ∈ params →
    ('\n' ∈ p ∨ '\r' ∈ p ∨ ' ' ∈ p ∨ p.head? = some ':') →
    ∃ e, get_prefix_go acc params = .error e := by
  induction params with
  | nil =>
    intro acc p hp _
    exact absurd hp (List.not_mem_nil p)
  | cons q rest ih =>
    intro acc p hp hbad
    unfold get_prefix_go
    by_cases hq : q = []
    · rw [if_pos hq]
      rcases List.mem_cons.mp hp with rfl | hp'
      · subst hq
        simp at hbad
      · exact ih acc p hp' hbad
    · rw [if_neg hq]
      by_cases h1 : '\n' ∈ q ∨ '\r' ∈ q
      · rw [if_pos h1]
        exact ⟨_, rfl⟩
      · rw [if_neg h1]
        by_cases h2 : ' ' ∈ q ∨ q.head? = some ':'
        · rw [if_pos h2]
          exact ⟨_, rfl⟩
        · rw [if_neg h2]
          rcases List.mem_cons.mp hp with rfl | hp'
          · tauto
          · exact ih _ p hp' hbad

theorem pySplit_ne_nil (sep : Char) (s : Chars) : pySplit sep s ≠ [] := by
  cases s with
  | nil => simp [pySplit]
  | cons c rest =>
    simp only [pySplit]
    split
    · simp
    · split <;> simp

theorem pySplit_not_mem (sep : Char) (s : Chars) : ∀ p ∈ pySplit sep s, sep ∉ p := by
  induction s with
  | nil =>
    intro p hp
    simp [pySplit] at hp
    simp [hp]
  | cons c rest ih =>
    intro p hp
    simp only [pySplit] at hp
    by_cases hc : c = sep
    · rw [if_pos hc] at hp
      rcases List.mem_cons.mp hp with rfl | hp'
      · simp
      · exact ih p hp'
    · rw [if_neg hc] at hp
      rcases hr : pySplit sep rest with _ | ⟨p0, ps⟩
      · exact absurd hr (pySplit_ne_nil sep rest)
      · rw [hr] at hp
        rcases List.mem_cons.mp hp with rfl | hp'
        · intro hmem
          rcases List.mem_cons.mp hmem with rfl | hmem'
          · exact hc rfl
          · exact ih p0 (hr ▸ List.mem_cons_self p0 ps) hmem'
        · exact ih p (hr ▸ List.mem_cons_of_mem p0 hp')

theorem pyStripLeft_mem (bad s : Chars) (c : Char) (h : c ∈ pyStripLeft bad s) : c ∈ s := by
  induction s with
  | nil => simp [pyStripLeft] at h
  | cons x rest ih =>
    simp only [pyStripLeft] at h
    split at h
    · exact List.mem_cons_of_mem x (ih h)
    · exact h

theorem pyStrip_mem (bad s : Chars) (c : Char) (h : c ∈ pyStrip bad s) : c ∈ s := by
  unfold pyStrip at h
  have h1 := pyStripLeft_mem bad _ c h
  rw [List.mem_reverse] at h1
  have h2 := pyStripLeft_mem bad _ c h1
  rwa [List.mem_reverse] at h2

theorem pyJoin_mem (sep : Char) (l : List Chars) (c : Char) (h : c ∈ pyJoin sep l) :
    c = sep ∨ ∃ p ∈ l, c ∈ p := by
  induction l with
  | nil => simp [pyJoin] at h
  | cons p ps ih =>
    cases ps with
    | nil =>
      simp only [pyJoin] at h
      exact Or.inr ⟨p, List.mem_cons_self p [], h⟩
    | cons q qs =>
      simp only [pyJoin] at h
      rcases List.mem_append.mp h with hin | hin
      · exact Or.inr ⟨p, List.mem_cons_self _ _, hin⟩
      · rcases List.mem_cons.mp hin with rfl | hin'
        · exact Or.inl rfl
        · rcases ih hin' with h | ⟨p', hp', hc⟩
          · exact Or.inl h
          · exact Or.inr ⟨p', List.mem_cons_of_mem p hp', hc⟩

theorem clean_last_no_lf (last : Chars) : '\n' ∉ clean_last last := by
  intro h
  rcases pyJoin_mem ' ' _ '\n' h with h' | ⟨p, hp, hc⟩
  · exact absurd h' (by decide)
  · rcases List.mem_map.mp hp with ⟨p0, hp0, rfl⟩
    exact pySplit_not_mem '\n' last p0 hp0 (pyStrip_mem _ _ _ hc)

theorem get_prefix_go_no_lf (params : List Chars) : ∀ (acc pre : Chars),
    get_prefix_go acc params = .ok pre → '\n' ∉ acc → '\n' ∉ pre := by
  induction params with
  | nil =>
    intro acc pre h hacc
    unfold get_prefix_go at h
    cases h
    intro hmem
    exact hacc (List.dropLast_subset acc hmem)
  | cons q rest ih =>
    intro acc pre h hacc
    unfold get_prefix_go at h
    by_cases hq : q = []
    · rw [if_pos hq] at h
      exact ih acc pre h hacc
    · rw [if_neg hq] at h
      by_cases h1 : '\n' ∈ q ∨ '\r' ∈ q
      · rw [if_pos h1] at h
        cases h
      · rw [if_neg h1] at h
        by_cases h2 : ' ' ∈ q ∨ q.head? = some ':'
        · rw [if_pos h2] at h
          cases h
        · rw [if_neg h2] at h
          refine ih _ pre h ?_
          intro hmem
          rcases List.mem_append.mp hmem with hmem' | hmem'
          · rcases List.mem_append.mp hmem' with hmem'' | hmem''
            · exact hacc hmem''
            · exact h1 (Or.inl hmem'')
          · simp at hmem'

/-- C6 (as amended): a non-last parameter containing space, CR or LF, or
starting with `:`, fails the call with `ValueError` before anything reaches
the wire; the single emitted line never contains a line feed (the last
parameter is split on `\n` and re-joined with spaces), but a carriage return
not adjacent to a piece boundary survives into the emitted line. -/
theorem C6_send_validation :
    (∀ (params : List Chars) (last : Chars) (p : Chars), p ∈ params →
        ('\n' ∈ p ∨ '\r' ∈ p ∨ ' ' ∈ p ∨ p.head? = some ':') →
        ∃ e, send_line params last = .error e) ∧
    (∀ (params : List Chars) (last : Chars) (line : Chars),
        send_line params last = .ok line → '\n' ∉ line) := by
  constructor
  · intro params last p hp hbad
    rcases get_prefix_go_error params [] p hp hbad with ⟨e, he⟩
    exact ⟨e, by simp [send_line, get_prefix_params, he]⟩
  · intro params last line h
    unfold send_line at h
    cases hpre : get_prefix_params params with
    | error e => rw [hpre] at h; cases h
    | ok pre =>
      rw [hpre] at h
      simp only [Except.ok.injEq] at h
      have hpre' : '\n' ∉ pre :=
        get_prefix_go_no_lf params [] pre hpre (by simp)
      intro hmem
      rw [← h] at hmem
      split at hmem
      · rcases List.mem_append.mp hmem with h' | h'
        · exact hpre' h'
        · rcases List.mem_cons.mp h' with h'' | h''
          · exact absurd h'' (by decide)
          · rcases List.mem_cons.mp h'' with h''' | h'''
            · exact absurd h''' (by decide)
            · exact clean_last_no_lf last h'''
      · exact hpre' hmem

/-- C6 counterexample: a lone interior CR in the last parameter is *not*
removed — the emitted line contains a raw `\r`, refuting the claim that
embedded CR/LF are removed so that the last parameter can never forge an
extra wire line. -/
theorem C6_counterexample :
    send_line ["PRIVMSG".data, "#c".data] "a\rb".data = .ok "PRIVMSG #c :a\rb".data ∧
    '\r' ∈ "PRIVMSG #c :a\rb".data := by
  constructor
  · decide
  · decide

theorem C6_witness :
    (∃ e, send_line ["KICK".data, "a b".data] [] = Except.error e) ∧
    ('\n' ∉ "PRIVMSG #c :a b".data) :=
  ⟨C6_send_validation.1 ["KICK".data, "a b".data] [] "a b".data (by decide) (by decide),
   C6_send_validation.2 ["PRIVMSG".data, "#c".data] "a\nb".data "PRIVMSG #c :a b".data (by decide)⟩

/- C4 -/

/-- C4: the raw line `:nick!user@host PRIVMSG #chan :hello` parses to origin
mask `nick`/`user`/`host`, command `PRIVMSG`, parameters `["#chan",
"hello"]`, and processing it fires `on_channel_message` (`#chan` is a channel
under the default `CHANTYPES`). -/
theorem C4_privmsg_example :
    parse_message ":nick!user@host PRIVMSG #chan :hello".data =
      some (some ⟨"nick".data, "user".data, "host".data⟩, "PRIVMSG".data,
        ["#chan".data, "hello".data]) ∧
    "on_channel_message" ∈ process_callbacks ServerConfig.init "me".data []
      ":nick!user@host PRIVMSG #chan :hello".data := by
  constructor
  · decide
  · decide

/- C1 -/

theorem sortInsert_perm (x : PyMode) (l : List PyMode) : (sortInsert x l).Perm (x :: l) := by
  induction l with
  | nil => exact List.Perm.refl _
  | cons b bs ih =>
    unfold sortInsert
    split
    · exact (ih.cons b).trans (List.Perm.swap x b bs)
    · exact List.Perm.refl _

theorem pySortModes_perm (l : List PyMode) : (pySortModes l).Perm l := by
  induction l with
  | nil => exact List.Perm.refl _
  | cons x xs ih => exact (sortInsert_perm x (pySortModes xs)).trans (ih.cons x)

theorem set_modes_inner_spec (target : Chars) (maxModes : Nat) :
    ∀ (rem : List PyMode) (i : Nat) (sgn : Option Char) (mn : Chars) (mv : List Chars),
      (∀ x ∈ rem, x.name ≠ []) →
      ∃ out, set_modes_inner target maxModes rem i sgn mn mv = some out ∧
        out.2.2.1 ++ out.2.2.2 = rem ∧
        out.2.1.length ≤ mv.length + out.2.2.1.length ∧
        out.2.2.1.length ≤ maxModes - i := by
  intro rem
  induction rem with
  | nil =>
    intro i sgn mn mv _
    exact ⟨(mn, mv, [], []), rfl, rfl, by simp, by simp⟩
  | cons x rest ih =>
    intro i sgn mn mv hnames
    have hx : x.name ≠ [] := hnames x (List.mem_cons_self x rest)
    simp only [set_modes_inner]
    by_cases hc : target.length + mn.length + (join_sp mv).length < 450 ∧ i < maxModes
    · rw [if_pos hc]
      cases hn : x.name with
      | nil => exact absurd hn hx
      | cons s0 srest =>
        obtain ⟨out', heq, hcat, hlen, hcount⟩ :=
          ih (i + 1) (if sgn ≠ some s0 then some s0 else sgn)
            ((if sgn ≠ some s0 then mn ++ [s0] else mn) ++ srest)
            (if x.val ≠ [] then mv ++ [x.val] else mv)
            (fun y hy => hnames y (List.mem_cons_of_mem x hy))
        refine ⟨(out'.1, out'.2.1, x :: out'.2.2.1, out'.2.2.2), ?_, ?_, ?_, ?_⟩
        · simp only [heq, Option.map_some']
        · simpa using hcat
        · have : (if x.val ≠ [] then mv ++ [x.val] else mv).length ≤ mv.length + 1 := by
            split <;> simp
          simp only [List.length_cons]
          omega
        · simp only [List.length_cons]
          omega
    · rw [if_neg hc]
      exact ⟨(mn, mv, [], x :: rest), rfl, rfl, by simp, by simp⟩

theorem set_modes_inner_progress (target : Chars) (maxModes : Nat) (x : PyMode)
    (rest : List PyMode) (h450 : target.length < 450) (hm : 0 < maxModes) (out)
    (h : set_modes_inner target maxModes (x :: rest) 0 none [] [] = some out) :
    out.2.2.1 ≠ [] := by
  have hc : target.length + ([] : Chars).length + (join_sp []).length < 450 ∧ 0 < maxModes := by
    constructor
    · simpa [join_sp, pyJoin] using h450
    · exact hm
  simp only [set_modes_inner, if_pos hc] at h
  cases hn : x.name with
  | nil =>
    rw [hn] at h
    cases h
  | cons s0 srest =>
    rw [hn] at h
    simp only [Option.map_eq_some'] at h
    obtain ⟨r, _, hr⟩ := h
    rw [← hr]
    simp

theorem set_modes_loop_spec (target : Chars) (maxModes : Nat)
    (h450 : target.length < 450) (hm : 0 < maxModes) :
    ∀ (fuel : Nat) (rem : List PyMode), rem.length ≤ fuel →
      (∀ x ∈ rem, x.name ≠ []) →
      ∃ cmds, set_modes_loop target maxModes fuel rem = some cmds ∧
        (cmds.map ModeCmd.batch).flatten = rem ∧
        ∀ c ∈ cmds, c.modevals.length ≤ maxModes := by
  intro fuel
  induction fuel with
  | zero =>
    intro rem hlen _
    have : rem = [] := List.eq_nil_of_length_eq_zero (Nat.le_zero.mp hlen)
    subst this
    exact ⟨[], rfl, rfl, by simp⟩
  | succ fuel ih =>
    intro rem hlen hnames
    cases rem with
    | nil => exact ⟨[], rfl, rfl, by simp⟩
    | cons x rest =>
      obtain ⟨out, heq, hcat, hmv, hcount⟩ :=
        set_modes_inner_spec target maxModes (x :: rest) 0 none [] [] hnames
      have hne := set_modes_inner_progress target maxModes x rest h450 hm out heq
      obtain ⟨mn, mv, batch, rem'⟩ := out
      simp only [List.length_nil, Nat.zero_add, Nat.sub_zero] at hcat hmv hcount hne
      have hlen' : rem'.length ≤ fuel := by
        have h1 : batch.length + rem'.length = rest.length + 1 := by
          have := congrArg List.length hcat
          simpa using this
        have h2 : 1 ≤ batch.length := by
          cases batch with
          | nil => exact absurd rfl hne
          | cons _ _ => simp
        simp only [List.length_cons] at hlen
        omega
      have hnames' : ∀ y ∈ rem', y.name ≠ [] := by
        intro y hy
        refine hnames y ?_
        rw [← hcat]
        exact List.mem_append_right batch hy
      obtain ⟨cmds', heq', hflat', hbound'⟩ := ih rem' hlen' hnames'
      refine ⟨⟨mn, mv, batch⟩ :: cmds', ?_, ?_, ?_⟩
      · simp only [set_modes_loop]
        rw [heq]
        simp only [heq', Option.map_some']
      · simp only [List.map_cons, List.flatten_cons, hflat']
        exact hcat
      · intro c hc
        rcases List.mem_cons.mp hc with rfl | hc'
        · simp only
          omega
        · exact hbound' c hc'

/-- C1 counterexample: `set_modes` sorts the change list before batching, so
the concatenation of the emitted commands' changes is the *sorted* list, not
the input list (`[('+b','x'), ('+a','y')]` comes back as
`[('+a','y'), ('+b','x')]`). -/
theorem C1_counterexample :
    (set_modes "#c".data 3 [PyMode.p "+b".data "x".data, PyMode.p "+a".data "y".data]).map
        (fun cmds => (cmds.map ModeCmd.batch).flatten) =
      some [PyMode.p "+a".data "y".data, PyMode.p "+b".data "x".data] ∧
    [PyMode.p "+a".data "y".data, PyMode.p "+b".data "x".data] ≠
      [PyMode.p "+b".data "x".data, PyMode.p "+a".data "y".data] := by
  constructor
  · decide
  · decide

/-- C1 (as amended): under a positive `max_modes`, a target shorter than the
450-byte budget and nonempty mode names, `set_modes` emits commands whose
valued entries never exceed `max_modes` per command, and whose concatenated
changes are exactly the input list sorted stably by `(not bool(val), name,
val)` — a permutation of the input, not the input order itself. -/
theorem C1_set_modes_batching (target : Chars) (maxModes : Nat) (modes : List PyMode)
    (h450 : target.length < 450) (hm : 0 < maxModes)
    (hnames : ∀ x ∈ modes, x.name ≠ []) :
    ∃ cmds, set_modes target maxModes modes = some cmds ∧
      (cmds.map ModeCmd.batch).flatten = pySortModes modes ∧
      (pySortModes modes).Perm modes ∧
      ∀ c ∈ cmds, c.modevals.length ≤ maxModes := by
  have hperm := pySortModes_perm modes
  have hnames' : ∀ x ∈ pySortModes modes, x.name ≠ [] :=
    fun x hx => hnames x (hperm.mem_iff.mp hx)
  obtain ⟨cmds, h1, h2, h3⟩ := set_modes_loop_spec target maxModes h450 hm
    (pySortModes modes).length (pySortModes modes) le_rfl hnames'
  exact ⟨cmds, h1, h2, hperm, h3⟩

theorem C1_witness :
    ∃ cmds, set_modes "#foo".data 3
        [PyMode.p "-o".data "Foo2".data, PyMode.p "+l".data "30".data, PyMode.s "-k".data] =
        some cmds ∧
      (cmds.map ModeCmd.batch).flatten = pySortModes
        [PyMode.p "-o".data "Foo2".data, PyMode.p "+l".data "30".data, PyMode.s "-k".data] ∧
      (pySortModes
        [PyMode.p "-o".data "Foo2".data, PyMode.p "+l".data "30".data, PyMode.s "-k".data]).Perm
        [PyMode.p "-o".data "Foo2".data, PyMode.p "+l".data "30".data, PyMode.s "-k".data] ∧
      ∀ c ∈ cmds, c.modevals.length ≤ 3 :=
  C1_set_modes_batching "#foo".data 3
    [PyMode.p "-o".data "Foo2".data, PyMode.p "+l".data "30".data, PyMode.s "-k".data]
    (by decide) (by decide) (by decide)

/- C7 -/

theorem lookup_cons {κ α : Type} [BEq κ] [LawfulBEq κ] [DecidableEq κ]
    (k0 : κ) (v0 : α) (rest : List (κ × α)) (k' : κ) :
    List.lookup k' ((k0, v0) :: rest) = if k' = k0 then some v0 else List.lookup k' rest := by
  by_cases h : k' = k0
  · simp [List.lookup, beq_iff_eq, h]
  · simp [List.lookup, beq_eq_false_iff_ne.mpr h, h]

theorem alSet_lookup {α : Type} (l : List (String × α)) (k : String) (v : α) (k' : String) :
    (alSet l k v).lookup k' = if k' = k then some v else l.lookup k' := by
  induction l with
  | nil =>
    simp only [alSet, lookup_cons]
  | cons e rest ih =>
    obtain ⟨k0, v0⟩ := e
    simp only [alSet]
    by_cases h0 : k0 = k
    · subst h0
      rw [if_pos rfl]
      rw [lookup_cons, lookup_cons]
      by_cases h' : k' = k0
      · simp [h']
      · simp [h']
    · rw [if_neg h0]
      rw [lookup_cons, lookup_cons, ih]
      by_cases h' : k' = k0
      · subst h'
        have hne : ¬ (k' = k) := h0
        simp [hne]
      · simp [h']

theorem alDel_lookup {α : Type} (l : List (String × α)) (k k' : String) :
    (alDel l k).lookup k' = if k' = k then none else l.lookup k' := by
  induction l with
  | nil => simp [alDel]
  | cons e rest ih =>
    obtain ⟨k0, v0⟩ := e
    by_cases h0 : k0 = k
    · subst h0
      have hd : alDel ((k0, v0) :: rest) k0 = alDel rest k0 := by
        simp [alDel]
      rw [hd, ih, lookup_cons]
      by_cases h' : k' = k0
      · simp [h']
      · simp [h']
    · have hd : alDel ((k0, v0) :: rest) k = (k0, v0) :: alDel rest k := by
        simp [alDel, h0]
      rw [hd, lookup_cons, lookup_cons, ih]
      by_cases h' : k' = k0
      · subst h'
        have hne : ¬ (k' = k) := h0
        simp [hne, h0]
      · simp [h']

theorem NDict.get?_set_self {α : Type} (d : NDict α) (k : String) (v : α) :
    (d.set k v).get? k = some v := by
  unfold NDict.set NDict.get?
  cases h : d.map.lookup (ircLowerS k) with
  | some raw => simp [h, alSet_lookup]
  | none => simp [alSet_lookup]

theorem NDict.contains_set_ne {α : Type} (d : NDict α) (k k' : String) (v : α)
    (h : ircLowerS k' ≠ ircLowerS k) :
    (d.set k v).contains k' = d.contains k' := by
  unfold NDict.set NDict.contains
  cases hm : d.map.lookup (ircLowerS k) with
  | some raw => rfl
  | none => simp only [alSet_lookup, if_neg h]

theorem NDict.contains_del_self {α : Type} (d : NDict α) (k : String) :
    (d.del k).contains k = false := by
  unfold NDict.del NDict.contains
  cases hm : d.map.lookup (ircLowerS k) with
  | some raw => simp [alDel_lookup]
  | none => simp [hm]

theorem heapGet_heapSet_self (h : List (Nat × User)) (uid : Nat) (u : User) :
    heapGet (heapSet h uid u) uid = some u := by
  induction h with
  | nil =>
    show List.lookup uid [(uid, u)] = some u
    rw [lookup_cons, if_pos rfl]
  | cons e rest ih =>
    obtain ⟨k, v⟩ := e
    by_cases hk : k = uid
    · simp only [heapSet, if_pos hk]
      show List.lookup uid ((uid, u) :: rest) = some u
      rw [lookup_cons, if_pos rfl]
    · simp only [heapSet, if_neg hk]
      show List.lookup uid ((k, v) :: heapSet rest uid u) = some u
      rw [lookup_cons, if_neg (fun h' => hk h'.symm)]
      exact ih

/-- C7 counterexample: a case-only nick change (`Foo` → `FOO`) re-keys the
registry, but the old nick, case-folded, is *still present* (it folds to the
same key as the new nick), refuting "the old nick (case-folded) is absent". -/
theorem C7_counterexample :
    (nick_change trFoo 0 "FOO").users.contains "Foo" = true ∧
    (nick_change trFoo 0 "FOO").users.get? "Foo" = some 0 := by
  constructor
  · decide
  · decide

/-- C7 (as amended): for a registered user, a nick change whose new nick
case-folds differently from the old one re-keys the registry so that the old
nick is absent, the new nick resolves to the very same user object (same
uid), and the user's channel-membership data is unchanged.  (For a case-only
change the old key necessarily still resolves, to the same user.) -/
theorem C7_nick_change (tr : Tracker) (uid : Nat) (u : User) (newnick : String)
    (hheap : heapGet tr.heap uid = some u)
    (hreg : tr.users.get? u.nick = some uid)
    (hfold : ircLowerS u.nick ≠ ircLowerS newnick) :
    (nick_change tr uid newnick).users.get? newnick = some uid ∧
    (nick_change tr uid newnick).users.contains u.nick = false ∧
    heapGet (nick_change tr uid newnick).heap uid = some { u with nick := newnick } ∧
    ({ u with nick := newnick }).channels = u.channels := by
  unfold nick_change
  rw [hheap]
  refine ⟨?_, ?_, heapGet_heapSet_self _ _ _, rfl⟩
  · show (tr.users.rename_key u.nick newnick).get? newnick = some uid
    unfold NDict.rename_key
    rw [hreg]
    exact NDict.get?_set_self _ _ _
  · show (tr.users.rename_key u.nick newnick).contains u.nick = false
    unfold NDict.rename_key
    rw [hreg]
    rw [NDict.contains_set_ne _ _ _ _ hfold]
    exact NDict.contains_del_self _ _

theorem C7_witness :
    (nick_change trFoo 0 "Bar").users.get? "Bar" = some 0 ∧
    (nick_change trFoo 0 "Bar").users.contains "Foo" = false :=
  ⟨(C7_nick_change trFoo 0 ⟨"Foo", "", "", {}, false⟩ "Bar" (by decide) (by decide)
      (by decide)).1,
   (C7_nick_change trFoo 0 ⟨"Foo", "", "", {}, false⟩ "Bar" (by decide) (by decide)
      (by decide)).2.1⟩

/- C8 -/

/-- C8: under `CHANMODES=b,k,l,psitnm` (and the default `PREFIX=(ov)@+` and
`MAXLIST=beI:10`), (1) `+o alice` parses to `(add, 'o', 'alice')` and
processing it adds `o` to alice's mode set for the channel; (2) the per-user
mutation condition is exactly "mode is a prefix mode" (`o` or `v`), so
list-type modes such as `b` never touch per-user state; (3) a non-matching
mode leaves the tracker unchanged; and (4) a matching mode updates exactly
the target user's per-channel mode set. -/
theorem C8_mode_tracking :
    parse_modes confChanModes "+o".data ["alice".data] =
      some [(true, 'o', some "alice".data)] ∧
    ((apply_mode_triples confChanModes "#chan" trAlice
        [(true, 'o', some "alice".data)]).bind
      (fun tr' => (heapGet tr'.heap 0).bind
        (fun u => u.channels.get? "#chan"))) = some ['o'] ∧
    (∀ mode : Char, mode_touches_user confChanModes mode = (mode = 'o' || mode = 'v')) ∧
    (∀ (tr : Tracker) (chan : String) (add : Bool) (mode : Char) (value : Option Chars),
      mode_touches_user confChanModes mode = false →
      apply_mode_triple confChanModes chan tr (add, mode, value) = some tr) ∧
    (∀ (tr : Tracker) (chan : String) (add : Bool) (mode : Char) (v : Chars)
        (uid : Nat) (u : User) (ms : Chars),
      mode_touches_user confChanModes mode = true →
      parse_mask v = ⟨v, [], []⟩ →
      tr.users.get? (String.mk v) = some uid →
      heapGet tr.heap uid = some u →
      u.channels.get? chan = some ms →
      ∃ tr', apply_mode_triple confChanModes chan tr (add, mode, some v) = some tr' ∧
        tr'.users = tr.users ∧
        ∃ u', heapGet tr'.heap uid = some u' ∧
          u'.channels.get? chan =
            some (if add then setAdd ms mode else if mode ∈ ms then ms.erase mode else ms) ∧
          u'.nick = u.nick ∧ u'.ident = u.ident ∧ u'.host = u.host) := by
  refine ⟨by decide, by decide, ?_, ?_, ?_⟩
  · intro mode
    have h1 : prefixes_modes confChanModes = ['o', 'v'] := by decide
    have h2 : list_modes confChanModes = ['b', 'e', 'I', 'b'] := by decide
    have h3 : max_lists_keys confChanModes = ['b', 'e', 'I'] := by decide
    unfold mode_touches_user
    rw [h1, h2, h3]
    have hiff : (mode ∈ (['o', 'v'] : Chars) ∨
        (mode ∈ (['b', 'e', 'I', 'b'] : Chars) ∧ mode ∉ (['b', 'e', 'I'] : Chars))) ↔
        (mode = 'o' ∨ mode = 'v') := by
      simp only [List.mem_cons, List.not_mem_nil, or_false]
      tauto
    simp only [hiff]
    by_cases ho : mode = 'o' <;> by_cases hv : mode = 'v' <;> simp [ho, hv]
  · intro tr chan add mode value h
    simp [apply_mode_triple, h]
  · intro tr chan add mode v uid u ms hcond hpm hreg hheap hchan
    simp only [apply_mode_triple, hcond, if_true]
    have hres : resolve_mask tr v = ({ tr with heap := heapSet tr.heap uid u }, uid) := by
      unfold resolve_mask
      rw [hpm]
      simp only [hreg, hheap]
      simp
    rw [hres]
    simp only [heapGet_heapSet_self, hchan]
    refine ⟨_, rfl, rfl, ?_⟩
    refine ⟨_, heapGet_heapSet_self _ _ _, ?_, rfl, rfl, rfl⟩
    exact NDict.get?_set_self _ _ _

theorem C8_witness :
    ∃ tr', apply_mode_triple confChanModes "#chan" trAlice (true, 'o', some "alice".data) =
        some tr' ∧
      tr'.users = trAlice.users ∧
      ∃ u', heapGet tr'.heap 0 = some u' ∧
        u'.channels.get? "#chan" = some (setAdd [] 'o') ∧
        u'.nick = "alice" ∧ u'.ident = "" ∧ u'.host = "" := by
  have h := C8_mode_tracking.2.2.2.2 trAlice "#chan" true 'o' "alice".data 0
    ⟨"alice", "", "", NDict.set {} "#chan" [], false⟩ [] (by decide) (by decide) (by decide)
    (by decide) (by decide)
  simpa using h

/- C3 -/

theorem to_string_false_le (cs : List Chunk) :
    (to_string false cs).length ≤ (to_string true cs).length := by
  unfold to_string
  simp [List.length_append]

theorem to_string_single_false (c : Chunk) :
    to_string false [c] = singleA c ++ c.text := by
  simp only [to_string, List.foldl_cons, List.foldl_nil, to_string_step, singleA]
  simp [ite_self]

theorem to_string_single_true (c : Chunk) :
    to_string true [c] = singleA c ++ c.text ++ singleE c := by
  simp only [to_string, List.foldl_cons, List.foldl_nil, to_string_step, singleA, singleE]
  simp [ite_self, List.append_assoc]

theorem singleA_congr (c : Chunk) (t' : Chars)
    (hh : digit_or_comma t'.head? = digit_or_comma c.text.head?) :
    singleA { c with text := t' } = singleA c := by
  have h1 : colorPart none none { c with text := t' } = colorPart none none c := rfl
  have h2 : ({ c with text := t' } : Chunk).tags = c.tags := rfl
  have h3 : ({ c with text := t' } : Chunk).text = t' := rfl
  simp only [singleA, workaround, h1, h2, h3, hh]

theorem head?_take (l : Chars) (n : Nat) (hn : 1 ≤ n) : (l.take n).head? = l.head? := by
  cases l with
  | nil => simp
  | cons c t =>
    cases n with
    | zero => exact absurd hn (by simp)
    | succ n => simp [List.take]

theorem fit_go_snd (ml : Int) (next : List Chunk) :
    ∀ n : Nat, (fit_go ml next n).2 = tsLen (next.take (fit_go ml next n).1) := by
  intro n
  induction n with
  | zero => rfl
  | succ k ih =>
    simp only [fit_go]
    split
    · rfl
    · exact ih

theorem fit_go_big (ml : Int) (next : List Chunk) :
    ∀ n : Nat, ml < (fit_go ml next n).2 → (fit_go ml next n).1 = 1 := by
  intro n
  induction n with
  | zero => intro _; rfl
  | succ k ih =>
    intro h
    simp only [fit_go] at h ⊢
    split
    · rename_i hle
      rw [if_pos hle] at h
      exact absurd h (not_lt.mpr hle)
    · rename_i hle
      rw [if_neg hle] at h
      exact ih h

theorem fit_chunks_snd (ml : Int) (next : List Chunk) :
    (fit_chunks ml next).2 = tsLen (next.take (fit_chunks ml next).1) := by
  unfold fit_chunks
  exact fit_go_snd ml next next.length

theorem fit_chunks_big (ml : Int) (next : List Chunk)
    (h : ml < (fit_chunks ml next).2) : (fit_chunks ml next).1 = 1 := by
  unfold fit_chunks at h ⊢
  exact fit_go_big ml next next.length h

theorem wrap_line_stuck (ml : Int) (c : Chunk) (rest : List Chunk)
    (hbig : (fit_chunks ml (c :: rest)).2 > ml)
    (hchop : c.text.length ≤ ((fit_chunks ml (c :: rest)).2 - ml).toNat) :
    ∀ fuel : Nat, wrap_line ml fuel (c :: rest) = none := by
  intro fuel
  induction fuel with
  | zero => rfl
  | succ fuel ih =>
    simp only [wrap_line]
    rw [if_pos hbig]
    have hz : c.text.length - ((fit_chunks ml (c :: rest)).2 - ml).toNat = 0 :=
      Nat.sub_eq_zero_of_le hchop
    rw [hz]
    show (wrap_line ml fuel
      ({ c with text := c.text.drop 0 } :: rest)).map _ = none
    rw [List.drop_zero]
    show (wrap_line ml fuel (c :: rest)).map _ = none
    rw [ih]
    rfl

theorem wrap_line_budget (ml : Int) :
    ∀ (fuel : Nat) (cs : List Chunk) (lines : List Chars),
      wrap_line ml fuel cs = some lines → ∀ l ∈ lines, (l.length : Int) ≤ ml := by
  intro fuel
  induction fuel with
  | zero =>
    intro cs lines h l hl
    cases cs with
    | nil =>
      cases h
      cases hl
    | cons c rest => cases h
  | succ fuel ih =>
    intro cs lines h l hl
    cases cs with
    | nil =>
      cases h
      cases hl
    | cons c rest =>
      by_cases hbig : (fit_chunks ml (c :: rest)).2 > ml
      · by_cases hch : c.text.length ≤ ((fit_chunks ml (c :: rest)).2 - ml).toNat
        · rw [wrap_line_stuck ml c rest hbig hch (fuel + 1)] at h
          cases h
        · -- genuine chop: 0 < toChop < text length
          simp only [wrap_line] at h
          rw [if_pos hbig] at h
          rcases Option.map_eq_some'.mp h with ⟨ls, hrec, rfl⟩
          rcases List.mem_cons.mp hl with rfl | hl'
          · -- the emitted chopped line
            have h1 : (fit_chunks ml (c :: rest)).1 = 1 := fit_chunks_big ml (c :: rest) hbig
            have h2 := fit_chunks_snd ml (c :: rest)
            rw [h1] at h2
            have h2' : (fit_chunks ml (c :: rest)).2 = tsLen [c] := by
              simpa using h2
            set toChop := ((fit_chunks ml (c :: rest)).2 - ml).toNat with htc
            have htcpos : 1 ≤ toChop := by
              have : (0 : Int) < (fit_chunks ml (c :: rest)).2 - ml := by omega
              omega
            have hlt : toChop < c.text.length := Nat.lt_of_not_le hch
            have hhead : digit_or_comma ((c.text.take (c.text.length - toChop)).head?) =
                digit_or_comma c.text.head? := by
              rw [head?_take c.text _ (by omega)]
            have hAc := singleA_congr c (c.text.take (c.text.length - toChop)) hhead
            have hline : to_string false [{ c with text := c.text.take (c.text.length - toChop) }] =
                singleA c ++ c.text.take (c.text.length - toChop) := by
              rw [to_string_single_false, hAc]
            have hlen1 : (to_string false [{ c with text := c.text.take (c.text.length - toChop) }]).length =
                (singleA c).length + (c.text.length - toChop) := by
              rw [hline, List.length_append, List.length_take]
              congr 1
              omega
            have hts : tsLen [c] = ((singleA c).length : Int) + (c.text.length : Int) +
                ((singleE c).length : Int) := by
              unfold tsLen
              rw [to_string_single_true]
              simp [List.length_append]
              omega
            have htoi : (toChop : Int) = (fit_chunks ml (c :: rest)).2 - ml := by
              rw [htc]
              exact Int.toNat_of_nonneg (by omega)
            rw [hlen1]
            rw [h2'] at htoi
            rw [hts] at htoi
            push_cast
            omega
          · exact ih _ ls hrec l hl'
      · -- everything-fits branch
        simp only [wrap_line] at h
        rw [if_neg hbig] at h
        rcases Option.map_eq_some'.mp h with ⟨ls, hrec, rfl⟩
        rcases List.mem_cons.mp hl with rfl | hl'
        · have hsnd := fit_chunks_snd ml (c :: rest)
          have hle : (to_string false ((c :: rest).take (fit_chunks ml (c :: rest)).1)).length ≤
              (to_string true ((c :: rest).take (fit_chunks ml (c :: rest)).1)).length :=
            to_string_false_le _
          have : tsLen ((c :: rest).take (fit_chunks ml (c :: rest)).1) ≤ ml := by
            rw [← hsnd]
            omega
          unfold tsLen at this
          omega
        · exact ih _ ls hrec l hl'

/-- C3: when line breaking is enabled, every physical line that the
`send_multi` wrapping algorithm returns fits in the wire budget
`450 - len(prefix)`.  (On inputs where the Python loop would never return —
a budget smaller than a chunk's formatting overhead — no lines are returned
at all, modelled by `none`.) -/
theorem C3_send_multi_budget (pfxLen : Nat) (cl : List Chunk) (fuel : Nat)
    (lines : List Chars) (h : send_multi_wrapped pfxLen cl fuel = some lines) :
    ∀ l ∈ lines, (l.length : Int) ≤ 450 - (pfxLen : Int) := by
  have main : ∀ (lls : List (List Chunk)) (out : List Chars),
      (lls.foldr
        (fun line acc =>
          match acc with
          | none => none
          | some ls =>
            match wrap_line (450 - (pfxLen : Int)) fuel line with
            | none => none
            | some ls' => some (ls' ++ ls))
        (some []) = some out) → ∀ l ∈ out, (l.length : Int) ≤ 450 - (pfxLen : Int) := by
    intro lls
    induction lls with
    | nil =>
      intro out h' l hl
      cases h'
      cases hl
    | cons line lls ih =>
      intro out h' l hl
      simp only [List.foldr_cons] at h'
      cases hacc : lls.foldr
          (fun line acc =>
            match acc with
            | none => none
            | some ls =>
              match wrap_line (450 - (pfxLen : Int)) fuel line with
              | none => none
              | some ls' => some (ls' ++ ls))
          (some []) with
      | none => rw [hacc] at h'; cases h'
      | some ls =>
        rw [hacc] at h'
        cases hw : wrap_line (450 - (pfxLen : Int)) fuel line with
        | none => rw [hw] at h'; cases h'
        | some ls' =>
          rw [hw] at h'
          simp only [Option.some.injEq] at h'
          rw [← h'] at hl
          rcases List.mem_append.mp hl with hm | hm
          · exact wrap_line_budget _ fuel line ls' hw l hm
          · exact ih ls hacc l hm
  exact main (split_lines (split_words cl)) lines h

theorem C3_witness :
    (("aaaa bbbb cccc dddd eeee".data : Chars).length : Int) ≤ 450 - ((13 : Nat) : Int) :=
  C3_send_multi_budget 13 [{ text := "aaaa bbbb cccc dddd eeee".data }] 30
    ["aaaa bbbb cccc dddd eeee".data] (by decide)
    "aaaa bbbb cccc dddd eeee".data (by decide)

/- == C2: round trip of the Tags composition API == -/

theorem xor_cancel_left (a b : Bool) : xor a (xor a b) = b := by
  cases a <;> cases b <;> rfl

theorem xor_eq_false_iff (a b : Bool) : xor a b = false ↔ a = b := by
  cases a <;> cases b <;> decide

theorem toggle_only_spec (f : Fmts) :
    toggle_only f = true ↔ f.reset = false ∧ f.uncolor = false := by
  obtain ⟨r, u, b, ul, rv⟩ := f
  simp [toggle_only]

theorem minusRU_of_toggle {f : Fmts} (h : toggle_only f = true) : minusRU f = f := by
  obtain ⟨r, u, b, ul, rv⟩ := f
  obtain ⟨hr, hu⟩ := (toggle_only_spec _).mp h
  simp only at hr hu
  subst hr; subst hu
  rfl

theorem toggle_only_minusRU (f : Fmts) : toggle_only (minusRU f) = true := by
  obtain ⟨r, u, b, ul, rv⟩ := f
  rfl

theorem toggle_only_empty : toggle_only ({} : Fmts) = true := rfl

theorem fmtXor_empty_left (f : Fmts) : fmtXor {} f = f := by
  obtain ⟨r, u, b, ul, rv⟩ := f
  simp [fmtXor]

theorem fmtXor_empty_right (f : Fmts) : fmtXor f {} = f := by
  obtain ⟨r, u, b, ul, rv⟩ := f
  simp [fmtXor]

theorem fmtXor_self (f : Fmts) : fmtXor f f = {} := by
  obtain ⟨r, u, b, ul, rv⟩ := f
  simp [fmtXor]

theorem fmtXor_cancel (a b : Fmts) : fmtXor a (fmtXor a b) = b := by
  obtain ⟨r, u, bo, ul, rv⟩ := a
  obtain ⟨r2, u2, b2, ul2, rv2⟩ := b
  simp [fmtXor, xor_cancel_left]

theorem toggle_only_fmtXor {a b : Fmts} (ha : toggle_only a = true)
    (hb : toggle_only b = true) : toggle_only (fmtXor a b) = true := by
  obtain ⟨har, hau⟩ := (toggle_only_spec _).mp ha
  obtain ⟨hbr, hbu⟩ := (toggle_only_spec _).mp hb
  exact (toggle_only_spec _).mpr (by simp [fmtXor, har, hau, hbr, hbu])

theorem toggle_only_fmtUnion {a b : Fmts} (ha : toggle_only a = true)
    (hb : toggle_only b = true) : toggle_only (fmtUnion a b) = true := by
  obtain ⟨har, hau⟩ := (toggle_only_spec _).mp ha
  obtain ⟨hbr, hbu⟩ := (toggle_only_spec _).mp hb
  exact (toggle_only_spec _).mpr (by simp [fmtUnion, har, hau, hbr, hbu])

theorem fmtXor_eq_empty_iff (a b : Fmts) : fmtXor a b = {} ↔ a = b := by
  obtain ⟨r, u, bo, ul, rv⟩ := a
  obtain ⟨r2, u2, b2, ul2, rv2⟩ := b
  simp [fmtXor, Fmts.mk.injEq, xor_eq_false_iff]

theorem mem_of_getLast (l : Chars) (x : Char) (h : l.getLast? = some x) : x ∈ l := by
  induction l with
  | nil => cases h
  | cons a t ih =>
    cases t with
    | nil =>
      rw [List.getLast?_singleton] at h
      cases h
      exact List.mem_singleton_self _
    | cons b t2 =>
      rw [List.getLast?_cons_cons] at h
      exact List.mem_cons_of_mem _ (ih h)

theorem ne3_append (a b : Chars) (ha : a.getLast? ≠ some '\x03')
    (hb : '\x03' ∉ b) : (a ++ b).getLast? ≠ some '\x03' := by
  rw [List.getLast?_append]
  cases hl : b.getLast? with
  | none => simpa [Option.or] using ha
  | some y =>
    simp only [Option.or]
    intro heq
    cases heq
    exact hb (mem_of_getLast _ _ hl)

theorem ctrl_free_no_code {s : Chars} (h : ctrl_free s = true) {c : Char}
    (hc : c ∈ s) : format_of_code c = none := by
  have h2 := List.all_eq_true.mp h c hc
  exact Option.isNone_iff_eq_none.mp h2

theorem ctrl_free_no3 {s : Chars} (h : ctrl_free s = true) : '\x03' ∉ s := by
  intro hm
  have h2 := ctrl_free_no_code h hm
  have h3 : format_of_code '\x03' = some Fmt.uncolor := by decide
  rw [h3] at h2
  cases h2

theorem ctrl_free_append {a b : Chars} (ha : ctrl_free a = true)
    (hb : ctrl_free b = true) : ctrl_free (a ++ b) = true := by
  simp only [ctrl_free, List.all_append]
  rw [Bool.and_eq_true]
  exact And.intro ha hb

theorem fmt_codes_no3 {d : Fmts} (hd : toggle_only d = true) : '\x03' ∉ fmt_codes d := by
  obtain ⟨r, u, b, ul, rv⟩ := d
  obtain ⟨hr, hu⟩ := (toggle_only_spec _).mp hd
  simp only at hr hu
  subst hr; subst hu
  cases b <;> cases ul <;> cases rv <;> decide

theorem fmt_codes_empty : fmt_codes ({} : Fmts) = [] := rfl

theorem lastTags_toggle (cl : List Chunk) : ∀ T : Fmts, toggle_only T = true →
    toggle_only (lastTags T cl) = true := by
  induction cl with
  | nil => intro T h; simpa [lastTags] using h
  | cons c cs ih =>
    intro T h
    simp only [lastTags]
    exact ih _ (toggle_only_minusRU _)

theorem sgo_append (l1 : List Chunk) : ∀ (T : Fmts) (l2 : List Chunk),
    sgo T (l1 ++ l2) = sgo T l1 ++ sgo (lastTags T l1) l2 := by
  induction l1 with
  | nil => intro T l2; simp [sgo, lastTags]
  | cons c cs ih =>
    intro T l2
    simp only [List.cons_append, sgo, lastTags, List.append_eq, ih, List.append_assoc]

theorem lastTags_concat (l : List Chunk) (c : Chunk) : ∀ T : Fmts,
    lastTags T (l ++ [c]) = minusRU c.tags := by
  induction l with
  | nil => intro T; simp [lastTags]
  | cons a t ih =>
    intro T
    simp only [List.cons_append, lastTags]
    exact ih _

theorem ts_fold_reduce (cl : List Chunk) : ∀ (T : Fmts) (ret : Chars),
    toggle_only T = true → (∀ c ∈ cl, RChunk c) → ret.getLast? ≠ some '\x03' →
    cl.foldl to_string_step (ret, ⟨none, none, T⟩) =
      (ret ++ sgo T cl, ⟨none, none, lastTags T cl⟩) := by
  induction cl with
  | nil => intro T ret hT hR hr; simp [sgo, lastTags]
  | cons c cs ih =>
    intro T ret hT hR hr
    obtain ⟨hcf, hfg, hbg, hct⟩ := hR c (List.mem_cons_self c cs)
    have hd : toggle_only (fmtXor T c.tags) = true := toggle_only_fmtXor hT hct
    have h13 : (ret ++ fmt_codes (fmtXor T c.tags)).getLast? ≠ some '\x03' :=
      ne3_append _ _ hr (fmt_codes_no3 hd)
    have hstep : to_string_step (ret, ⟨none, none, T⟩) c =
        (ret ++ fmt_codes (fmtXor T c.tags) ++ c.text, ⟨none, none, c.tags⟩) := by
      have hdr : (fmtXor T c.tags).reset = false := ((toggle_only_spec _).mp hd).1
      have hdu : (fmtXor T c.tags).uncolor = false := ((toggle_only_spec _).mp hd).2
      simp [to_string_step, colorPart, workaround, hdr, hdu, hfg, hbg,
        minusRU_of_toggle hct]
      intro hor
      rcases hor with h1 | h2
      · exact absurd (mem_of_getLast _ _ h1) (fmt_codes_no3 hd)
      · exact absurd h2.2 hr
    have hnew : (ret ++ fmt_codes (fmtXor T c.tags) ++ c.text).getLast? ≠ some '\x03' := by
      rw [List.append_assoc]
      exact ne3_append _ _ hr
        (by
          intro hm
          rcases List.mem_append.mp hm with hm2 | hm2
          · exact fmt_codes_no3 hd hm2
          · exact ctrl_free_no3 hcf hm2)
    rw [List.foldl_cons, hstep,
      ih c.tags _ hct (fun x hx => hR x (List.mem_cons_of_mem _ hx)) hnew]
    simp [sgo, lastTags, minusRU_of_toggle hct, List.append_assoc]

theorem ts_simple (cl : List Chunk) (h : ∀ c ∈ cl, RChunk c) (ed : Bool) :
    to_string ed cl = sgo {} cl ++ (if ed then fmt_codes (lastTags {} cl) else []) := by
  have hf := ts_fold_reduce cl {} [] toggle_only_empty h (by simp)
  have hini : ({} : TState) = (⟨none, none, {}⟩ : TState) := rfl
  simp only [to_string, hini, hf]
  cases ed with
  | false => simp
  | true => simp [minusRU_of_toggle (lastTags_toggle cl {} toggle_only_empty)]

theorem parse_go_nil (fuel : Nat) (chunks : List Chunk) (cur : Chunk) :
    parse_go fuel [] chunks cur = some (chunks ++ [cur]) := by
  cases fuel <;> rfl

theorem parse_go_plain (fuel : Nat) {c : Char} (h : format_of_code c = none)
    (rest : Chars) (chunks : List Chunk) (cur : Chunk) :
    parse_go (fuel + 1) (c :: rest) chunks cur =
      parse_go fuel rest chunks { cur with text := cur.text ++ [c] } := by
  simp only [parse_go, h]

theorem parse_go_toggle (fuel : Nat) {c : Char} {f : Fmt} (hc : format_of_code c = some f)
    (hf : f = Fmt.bold ∨ f = Fmt.underline ∨ f = Fmt.reverse) (rest : Chars)
    (chunks : List Chunk) {cur : Chunk} (ht : cur.text = []) :
    parse_go (fuel + 1) (c :: rest) chunks cur =
      parse_go fuel rest chunks { cur with tags := fmtToggle cur.tags f } := by
  rcases hf with h | h | h <;> subst h <;> simp [parse_go, hc, ht]

theorem parse_go_toggle_flush (fuel : Nat) {c : Char} {f : Fmt}
    (hc : format_of_code c = some f)
    (hf : f = Fmt.bold ∨ f = Fmt.underline ∨ f = Fmt.reverse) (rest : Chars)
    (chunks : List Chunk) {cur : Chunk} (ht : cur.text ≠ []) :
    parse_go (fuel + 1) (c :: rest) chunks cur =
      parse_go fuel rest (chunks ++ [cur])
        ⟨[], cur.fgcolor, cur.bgcolor, fmtToggle (minusRU cur.tags) f⟩ := by
  rcases hf with h | h | h <;> subst h <;> simp [parse_go, hc, ht]

theorem parse_absorb (s : Chars) : ∀ (m : Nat) (r : Chars) (chunks : List Chunk)
    (cur : Chunk), ctrl_free s = true →
    parse_go (s.length + m) (s ++ r) chunks cur =
      parse_go m r chunks { cur with text := cur.text ++ s } := by
  induction s with
  | nil =>
    intro m r chunks cur h
    rw [show ({ cur with text := cur.text ++ [] } : Chunk) = cur from by
      obtain ⟨t, fg, bg, tg⟩ := cur; simp]
    simp
  | cons a t ih =>
    intro m r chunks cur h
    have hcf : format_of_code a = none := ctrl_free_no_code h (List.mem_cons_self a t)
    have hct : ctrl_free t = true :=
      List.all_eq_true.mpr fun x hx => List.all_eq_true.mp h x (List.mem_cons_of_mem _ hx)
    rw [show (a :: t).length + m = (t.length + m) + 1 from by
      simp [List.length_cons]; omega]
    rw [List.cons_append, parse_go_plain _ hcf,
      ih m r chunks { cur with text := cur.text ++ [a] } hct]
    congr 1
    obtain ⟨tx, fg, bg, tg⟩ := cur
    simp

theorem parse_codes (D : Fmts) (hD : toggle_only D = true) (m : Nat) (rest : Chars)
    (chunks : List Chunk) (cur : Chunk) (ht : cur.text = []) :
    parse_go ((fmt_codes D).length + m) (fmt_codes D ++ rest) chunks cur =
      parse_go m rest chunks { cur with tags := fmtXor cur.tags D } := by
  have hb2 : format_of_code '\x02' = some Fmt.bold := by decide
  have hul : format_of_code '\x1F' = some Fmt.underline := by decide
  have hrv : format_of_code '\x16' = some Fmt.reverse := by decide
  obtain ⟨r, u, b, ul, rv⟩ := D
  obtain ⟨hr, hu⟩ := (toggle_only_spec _).mp hD
  simp only at hr hu
  subst hr; subst hu
  cases b <;> cases ul <;> cases rv
  · simp only [show fmt_codes ⟨false, false, false, false, false⟩ = [] from rfl,
      List.length_nil, Nat.zero_add, List.nil_append]
    congr 1
    obtain ⟨tx, fg, bg, ⟨a1, a2, a3, a4, a5⟩⟩ := cur
    simp [fmtXor]
  · rw [show fmt_codes ⟨false, false, false, false, true⟩ = ['\x16'] from rfl]
    rw [show (['\x16'] : Chars).length + m = m + 1 from Nat.add_comm _ _]
    simp only [List.cons_append, List.nil_append]
    rw [parse_go_toggle m hrv (Or.inr (Or.inr rfl)) rest chunks ht]
    congr 1
    obtain ⟨tx, fg, bg, ⟨a1, a2, a3, a4, a5⟩⟩ := cur
    simp [fmtToggle, fmtXor]
  · rw [show fmt_codes ⟨false, false, false, true, false⟩ = ['\x1F'] from rfl]
    rw [show (['\x1F'] : Chars).length + m = m + 1 from Nat.add_comm _ _]
    simp only [List.cons_append, List.nil_append]
    rw [parse_go_toggle m hul (Or.inr (Or.inl rfl)) rest chunks ht]
    congr 1
    obtain ⟨tx, fg, bg, ⟨a1, a2, a3, a4, a5⟩⟩ := cur
    simp [fmtToggle, fmtXor]
  · rw [show fmt_codes ⟨false, false, false, true, true⟩ = ['\x1F', '\x16'] from rfl]
    rw [show (['\x1F', '\x16'] : Chars).length + m = m + 1 + 1 from by
      rw [List.length_cons, List.length_cons, List.length_nil]; omega]
    simp only [List.cons_append, List.nil_append]
    refine Eq.trans (parse_go_toggle (m + 1) hul (Or.inr (Or.inl rfl)) _ chunks ht) ?_
    refine Eq.trans (parse_go_toggle m hrv (Or.inr (Or.inr rfl)) rest chunks ht) ?_
    congr 1
    obtain ⟨tx, fg, bg, ⟨a1, a2, a3, a4, a5⟩⟩ := cur
    simp [fmtToggle, fmtXor]
  · rw [show fmt_codes ⟨false, false, true, false, false⟩ = ['\x02'] from rfl]
    rw [show (['\x02'] : Chars).length + m = m + 1 from Nat.add_comm _ _]
    simp only [List.cons_append, List.nil_append]
    rw [parse_go_toggle m hb2 (Or.inl rfl) rest chunks ht]
    congr 1
    obtain ⟨tx, fg, bg, ⟨a1, a2, a3, a4, a5⟩⟩ := cur
    simp [fmtToggle, fmtXor]
  · rw [show fmt_codes ⟨false, false, true, false, true⟩ = ['\x02', '\x16'] from rfl]
    rw [show (['\x02', '\x16'] : Chars).length + m = m + 1 + 1 from by
      rw [List.length_cons, List.length_cons, List.length_nil]; omega]
    simp only [List.cons_append, List.nil_append]
    refine Eq.trans (parse_go_toggle (m + 1) hb2 (Or.inl rfl) _ chunks ht) ?_
    refine Eq.trans (parse_go_toggle m hrv (Or.inr (Or.inr rfl)) rest chunks ht) ?_
    congr 1
    obtain ⟨tx, fg, bg, ⟨a1, a2, a3, a4, a5⟩⟩ := cur
    simp [fmtToggle, fmtXor]
  · rw [show fmt_codes ⟨false, false, true, true, false⟩ = ['\x02', '\x1F'] from rfl]
    rw [show (['\x02', '\x1F'] : Chars).length + m = m + 1 + 1 from by
      rw [List.length_cons, List.length_cons, List.length_nil]; omega]
    simp only [List.cons_append, List.nil_append]
    refine Eq.trans (parse_go_toggle (m + 1) hb2 (Or.inl rfl) _ chunks ht) ?_
    refine Eq.trans (parse_go_toggle m hul (Or.inr (Or.inl rfl)) rest chunks ht) ?_
    congr 1
    obtain ⟨tx, fg, bg, ⟨a1, a2, a3, a4, a5⟩⟩ := cur
    simp [fmtToggle, fmtXor]
  · rw [show fmt_codes ⟨false, false, true, true, true⟩ = ['\x02', '\x1F', '\x16'] from rfl]
    rw [show (['\x02', '\x1F', '\x16'] : Chars).length + m = m + 1 + 1 + 1 from by
      rw [List.length_cons, List.length_cons, List.length_cons, List.length_nil]; omega]
    simp only [List.cons_append, List.nil_append]
    refine Eq.trans (parse_go_toggle (m + 1 + 1) hb2 (Or.inl rfl) _ chunks ht) ?_
    refine Eq.trans (parse_go_toggle (m + 1) hul (Or.inr (Or.inl rfl)) _ chunks ht) ?_
    refine Eq.trans (parse_go_toggle m hrv (Or.inr (Or.inr rfl)) rest chunks ht) ?_
    congr 1
    obtain ⟨tx, fg, bg, ⟨a1, a2, a3, a4, a5⟩⟩ := cur
    simp [fmtToggle, fmtXor]

theorem parse_codes_flush (D : Fmts) (hD : toggle_only D = true) (hne : D ≠ {})
    (m : Nat) (rest : Chars) (chunks : List Chunk) (cur : Chunk) (ht : cur.text ≠ []) :
    parse_go ((fmt_codes D).length + m) (fmt_codes D ++ rest) chunks cur =
      parse_go m rest (chunks ++ [cur])
        ⟨[], cur.fgcolor, cur.bgcolor, fmtXor (minusRU cur.tags) D⟩ := by
  have hb2 : format_of_code '\x02' = some Fmt.bold := by decide
  have hul : format_of_code '\x1F' = some Fmt.underline := by decide
  have hrv : format_of_code '\x16' = some Fmt.reverse := by decide
  obtain ⟨r, u, b, ul, rv⟩ := D
  obtain ⟨hr, hu⟩ := (toggle_only_spec _).mp hD
  simp only at hr hu
  subst hr; subst hu
  cases b <;> cases ul <;> cases rv
  · exact absurd rfl hne
  · rw [show fmt_codes ⟨false, false, false, false, true⟩ = ['\x16'] from rfl]
    rw [show (['\x16'] : Chars).length + m = m + 1 from Nat.add_comm _ _]
    simp only [List.cons_append, List.nil_append]
    rw [parse_go_toggle_flush m hrv (Or.inr (Or.inr rfl)) rest chunks ht]
    congr 1
    obtain ⟨tx, fg, bg, ⟨a1, a2, a3, a4, a5⟩⟩ := cur
    simp [fmtToggle, fmtXor, minusRU]
  · rw [show fmt_codes ⟨false, false, false, true, false⟩ = ['\x1F'] from rfl]
    rw [show (['\x1F'] : Chars).length + m = m + 1 from Nat.add_comm _ _]
    simp only [List.cons_append, List.nil_append]
    rw [parse_go_toggle_flush m hul (Or.inr (Or.inl rfl)) rest chunks ht]
    congr 1
    obtain ⟨tx, fg, bg, ⟨a1, a2, a3, a4, a5⟩⟩ := cur
    simp [fmtToggle, fmtXor, minusRU]
  · rw [show fmt_codes ⟨false, false, false, true, true⟩ = ['\x1F', '\x16'] from rfl]
    rw [show (['\x1F', '\x16'] : Chars).length + m = m + 1 + 1 from by
      rw [List.length_cons, List.length_cons, List.length_nil]; omega]
    simp only [List.cons_append, List.nil_append]
    rw [parse_go_toggle_flush (m + 1) hul (Or.inr (Or.inl rfl)) _ chunks ht,
      parse_go_toggle m hrv (Or.inr (Or.inr rfl)) rest _ rfl]
    congr 1
    obtain ⟨tx, fg, bg, ⟨a1, a2, a3, a4, a5⟩⟩ := cur
    simp [fmtToggle, fmtXor, minusRU]
  · rw [show fmt_codes ⟨false, false, true, false, false⟩ = ['\x02'] from rfl]
    rw [show (['\x02'] : Chars).length + m = m + 1 from Nat.add_comm _ _]
    simp only [List.cons_append, List.nil_append]
    rw [parse_go_toggle_flush m hb2 (Or.inl rfl) rest chunks ht]
    congr 1
    obtain ⟨tx, fg, bg, ⟨a1, a2, a3, a4, a5⟩⟩ := cur
    simp [fmtToggle, fmtXor, minusRU]
  · rw [show fmt_codes ⟨false, false, true, false, true⟩ = ['\x02', '\x16'] from rfl]
    rw [show (['\x02', '\x16'] : Chars).length + m = m + 1 + 1 from by
      rw [List.length_cons, List.length_cons, List.length_nil]; omega]
    simp only [List.cons_append, List.nil_append]
    rw [parse_go_toggle_flush (m + 1) hb2 (Or.inl rfl) _ chunks ht,
      parse_go_toggle m hrv (Or.inr (Or.inr rfl)) rest _ rfl]
    congr 1
    obtain ⟨tx, fg, bg, ⟨a1, a2, a3, a4, a5⟩⟩ := cur
    simp [fmtToggle, fmtXor, minusRU]
  · rw [show fmt_codes ⟨false, false, true, true, false⟩ = ['\x02', '\x1F'] from rfl]
    rw [show (['\x02', '\x1F'] : Chars).length + m = m + 1 + 1 from by
      rw [List.length_cons, List.length_cons, List.length_nil]; omega]
    simp only [List.cons_append, List.nil_append]
    rw [parse_go_toggle_flush (m + 1) hb2 (Or.inl rfl) _ chunks ht,
      parse_go_toggle m hul (Or.inr (Or.inl rfl)) rest _ rfl]
    congr 1
    obtain ⟨tx, fg, bg, ⟨a1, a2, a3, a4, a5⟩⟩ := cur
    simp [fmtToggle, fmtXor, minusRU]
  · rw [show fmt_codes ⟨false, false, true, true, true⟩ = ['\x02', '\x1F', '\x16'] from rfl]
    rw [show (['\x02', '\x1F', '\x16'] : Chars).length + m = m + 1 + 1 + 1 from by
      rw [List.length_cons, List.length_cons, List.length_cons, List.length_nil]; omega]
    simp only [List.cons_append, List.nil_append]
    rw [parse_go_toggle_flush (m + 1 + 1) hb2 (Or.inl rfl) _ chunks ht,
      parse_go_toggle (m + 1) hul (Or.inr (Or.inl rfl)) _ _ rfl,
      parse_go_toggle m hrv (Or.inr (Or.inr rfl)) rest _ rfl]
    congr 1
    obtain ⟨tx, fg, bg, ⟨a1, a2, a3, a4, a5⟩⟩ := cur
    simp [fmtToggle, fmtXor, minusRU]

theorem parse_codes_flush_end (D : Fmts) (hD : toggle_only D = true) (hne : D ≠ {})
    (chunks : List Chunk) (cur : Chunk) (ht : cur.text ≠ []) :
    parse_go (fmt_codes D).length (fmt_codes D) chunks cur =
      some ((chunks ++ [cur]) ++
        [⟨[], cur.fgcolor, cur.bgcolor, fmtXor (minusRU cur.tags) D⟩]) := by
  have h := parse_codes_flush D hD hne 0 [] chunks cur ht
  rw [Nat.add_zero, List.append_nil] at h
  rw [h, parse_go_nil]

/-- Parsing the serialization of a colorless toggle-only chunk list, resumed
with a nonempty in-progress chunk: the result extends the accumulator by a
list of chunks that reserializes to the same string (adjacent equal-tag
chunks get merged by the parser). -/
theorem parse_sgo (cl : List Chunk) : ∀ (cur : Chunk),
    (∀ c ∈ cl, PChunk c) → cur.text ≠ [] → ctrl_free cur.text = true →
    cur.fgcolor = none → cur.bgcolor = none → toggle_only cur.tags = true →
    ∃ (pre : List Chunk) (last : Chunk),
      (∀ (m : Nat) (rest : Chars) (chunks : List Chunk),
        parse_go ((sgo cur.tags cl).length + m) (sgo cur.tags cl ++ rest) chunks cur =
          parse_go m rest (chunks ++ pre) last) ∧
      (∀ c ∈ pre, PChunk c) ∧
      last.text ≠ [] ∧ ctrl_free last.text = true ∧ last.fgcolor = none ∧
      last.bgcolor = none ∧ toggle_only last.tags = true ∧
      last.tags = lastTags cur.tags cl ∧
      (∀ T : Fmts, sgo T (pre ++ [last]) = sgo T (cur :: cl)) := by
  induction cl with
  | nil =>
    intro cur hP ht hcf hfg hbg hct
    refine ⟨[], cur, ?_, ?_, ht, hcf, hfg, hbg, hct, ?_, ?_⟩
    · intro m rest chunks
      simp [sgo]
    · intro x hx; cases hx
    · simp [lastTags]
    · intro T; simp
  | cons c cs ih =>
    intro cur hP ht hcf hfg hbg hct
    obtain ⟨hcne, hccf, hcfg, hcbg, hctg⟩ := hP c (List.mem_cons_self c cs)
    have hPcs : ∀ x ∈ cs, PChunk x := fun x hx => hP x (List.mem_cons_of_mem _ hx)
    by_cases heq : cur.tags = c.tags
    · -- same tags: the parser absorbs the next text into the current chunk
      have hD : fmtXor cur.tags c.tags = {} := by rw [heq]; exact fmtXor_self _
      have hsg : sgo cur.tags (c :: cs) = c.text ++ sgo c.tags cs := by
        simp [sgo, hD, fmt_codes_empty, minusRU_of_toggle hctg]
      obtain ⟨pre, last, heqn, hpre, h1, h2, h3, h4, h5, h6, h7⟩ :=
        ih { cur with text := cur.text ++ c.text } hPcs
          (fun h0 => ht (List.append_eq_nil.mp h0).1)
          (ctrl_free_append hcf hccf) hfg hbg hct
      refine ⟨pre, last, ?_, hpre, h1, h2, h3, h4, h5, ?_, ?_⟩
      · intro m rest chunks
        rw [hsg]
        rw [show (c.text ++ sgo c.tags cs).length + m
            = c.text.length + ((sgo c.tags cs).length + m) from by
          simp only [List.length_append]; omega]
        rw [List.append_assoc]
        rw [parse_absorb c.text _ _ _ _ hccf]
        rw [← heq]
        exact heqn m rest chunks
      · have h6b : last.tags = lastTags cur.tags cs := h6
        rw [h6b]
        simp [lastTags, minusRU_of_toggle hctg, heq]
      · intro T
        have h7b := h7 T
        rw [h7b]
        simp [sgo, hD, fmtXor_self, fmt_codes_empty, minusRU_of_toggle hct,
          minusRU_of_toggle hctg, heq, List.append_assoc]
    · -- different tags: the tag-difference codes flush the current chunk
      have hDne : fmtXor cur.tags c.tags ≠ {} :=
        fun h0 => heq ((fmtXor_eq_empty_iff _ _).mp h0)
      have hDt : toggle_only (fmtXor cur.tags c.tags) = true :=
        toggle_only_fmtXor hct hctg
      obtain ⟨pre, last, heqn, hpre, h1, h2, h3, h4, h5, h6, h7⟩ :=
        ih ⟨c.text, none, none, c.tags⟩ hPcs hcne hccf rfl rfl hctg
      refine ⟨cur :: pre, last, ?_, ?_, h1, h2, h3, h4, h5, ?_, ?_⟩
      · intro m rest chunks
        have hsg : sgo cur.tags (c :: cs) =
            fmt_codes (fmtXor cur.tags c.tags) ++ (c.text ++ sgo c.tags cs) := by
          simp [sgo, minusRU_of_toggle hctg, List.append_assoc]
        rw [hsg]
        rw [show (fmt_codes (fmtXor cur.tags c.tags) ++ (c.text ++ sgo c.tags cs)).length + m
            = (fmt_codes (fmtXor cur.tags c.tags)).length +
              (c.text.length + ((sgo c.tags cs).length + m)) from by
          simp only [List.length_append]; omega]
        rw [List.append_assoc]
        rw [parse_codes_flush _ hDt hDne _ _ chunks cur ht]
        rw [List.append_assoc]
        rw [show (⟨[], cur.fgcolor, cur.bgcolor,
              fmtXor (minusRU cur.tags) (fmtXor cur.tags c.tags)⟩ : Chunk) =
            ⟨[], none, none, c.tags⟩ from by
          rw [minusRU_of_toggle hct, fmtXor_cancel, hfg, hbg]]
        rw [parse_absorb c.text _ _ _ _ hccf]
        refine Eq.trans (heqn m rest (chunks ++ [cur])) ?_
        rw [List.append_assoc]
        rfl
      · intro x hx
        rcases List.mem_cons.mp hx with h0 | h0
        · subst h0; exact ⟨ht, hcf, hfg, hbg, hct⟩
        · exact hpre x h0
      · have h6b : last.tags = lastTags c.tags cs := h6
        rw [h6b]
        simp [lastTags, minusRU_of_toggle hctg]
      · intro T
        simp only [List.cons_append, sgo, List.append_eq]
        rw [minusRU_of_toggle hct, h7 cur.tags]
        simp [sgo, minusRU_of_toggle hctg, List.append_assoc]

theorem evalT_plain {t : TExpr} (h : PlainToggle t) : ∀ c ∈ evalT t, PChunk c := by
  induction h with
  | txt hne hcf =>
    intro c hc
    simp only [evalT, List.mem_singleton] at hc
    subst hc
    exact ⟨hne, hcf, rfl, rfl, rfl⟩
  | @tag fs e hfs hpt ih =>
    intro c hc
    simp only [evalT, List.mem_map] at hc
    obtain ⟨x, hx, hax⟩ := hc
    obtain ⟨x1, x2, x3, x4, x5⟩ := ih x hx
    obtain ⟨hr, hu⟩ := (toggle_only_spec _).mp x5
    have hn : apply_tag none none fs x = ⟨x.text, none, none, fmtUnion x.tags fs⟩ := by
      simp [apply_tag, hr, hu, x3, x4]
    subst hax
    rw [hn]
    exact ⟨x1, x2, rfl, rfl, toggle_only_fmtUnion x5 hfs⟩
  | cat ha hb iha ihb =>
    intro c hc
    simp only [evalT] at hc
    rcases List.mem_append.mp hc with h0 | h0
    · exact iha c h0
    · exact ihb c h0

theorem evalT_ne_nil {t : TExpr} (h : PlainToggle t) : evalT t ≠ [] := by
  induction h with
  | txt hne hcf => simp [evalT]
  | tag hfs hpt ih =>
    simp only [evalT]
    intro h0
    exact ih (List.map_eq_nil_iff.mp h0)
  | cat ha hb iha ihb =>
    simp only [evalT]
    intro h0
    exact iha (List.append_eq_nil.mp h0).1

/-- Chunk-level round trip: a nonempty list of colorless, toggle-only,
control-free, nonempty-text chunks reparses to a chunk list that serializes
to the same string. -/
theorem round_trip_chunks (cl : List Chunk) (hP : ∀ c ∈ cl, PChunk c)
    (hne : cl ≠ []) :
    ∃ L, parse (to_string true cl) = some L ∧
      to_string true L = to_string true cl := by
  obtain ⟨c0, cs, rfl⟩ : ∃ c0 cs, cl = c0 :: cs := by
    cases cl with
    | nil => exact absurd rfl hne
    | cons a b => exact ⟨a, b, rfl⟩
  obtain ⟨h0ne, h0cf, h0fg, h0bg, h0tg⟩ := hP c0 (List.mem_cons_self c0 cs)
  have hPcs : ∀ x ∈ cs, PChunk x := fun x hx => hP x (List.mem_cons_of_mem _ hx)
  have hR : ∀ c ∈ c0 :: cs, RChunk c := by
    intro c hc
    obtain ⟨_, a, b, d, e⟩ := hP c hc
    exact ⟨a, b, d, e⟩
  have ts_true : ∀ (l : List Chunk), (∀ c ∈ l, RChunk c) →
      to_string true l = sgo {} l ++ fmt_codes (lastTags {} l) :=
    fun l hl => by simpa using ts_simple l hl true
  have hS : to_string true (c0 :: cs) =
      sgo {} (c0 :: cs) ++ fmt_codes (lastTags c0.tags cs) := by
    have h0 := ts_true _ hR
    simpa [lastTags, minusRU_of_toggle h0tg] using h0
  have hstream : sgo {} (c0 :: cs) ++ fmt_codes (lastTags c0.tags cs) =
      fmt_codes c0.tags ++
        (c0.text ++ (sgo c0.tags cs ++ fmt_codes (lastTags c0.tags cs))) := by
    simp [sgo, fmtXor_empty_left, minusRU_of_toggle h0tg, List.append_assoc]
  have hLTt : toggle_only (lastTags c0.tags cs) = true :=
    lastTags_toggle cs c0.tags h0tg
  obtain ⟨pre, last, heqn, hpre, h1, h2, h3, h4, h5, h6, h7⟩ :=
    parse_sgo cs ⟨c0.text, none, none, c0.tags⟩ hPcs h0ne h0cf rfl rfl h0tg
  have h6b : last.tags = lastTags c0.tags cs := h6
  have h7b : ∀ T : Fmts, sgo T (pre ++ [last]) = sgo T (c0 :: cs) := by
    intro T
    rw [h7 T]
    simp [sgo]
  have hparse : parse (to_string true (c0 :: cs)) =
      parse_go (fmt_codes (lastTags c0.tags cs)).length
        (fmt_codes (lastTags c0.tags cs)) ([] ++ pre) last := by
    simp only [parse]
    rw [hS, hstream]
    rw [show (fmt_codes c0.tags ++
          (c0.text ++ (sgo c0.tags cs ++ fmt_codes (lastTags c0.tags cs)))).length
        = (fmt_codes c0.tags).length + (c0.text.length +
            ((sgo c0.tags cs).length + (fmt_codes (lastTags c0.tags cs)).length)) from by
      simp only [List.length_append]]
    rw [parse_codes c0.tags h0tg _ _ [] {} rfl]
    rw [show ({ ({} : Chunk) with tags := fmtXor ({} : Chunk).tags c0.tags } : Chunk)
        = (⟨[], none, none, c0.tags⟩ : Chunk) from by simp [fmtXor_empty_left]]
    rw [parse_absorb c0.text _ _ _ _ h0cf]
    exact heqn (fmt_codes (lastTags c0.tags cs)).length
      (fmt_codes (lastTags c0.tags cs)) []
  by_cases hLT : lastTags c0.tags cs = {}
  · refine ⟨([] ++ pre) ++ [last], ?_, ?_⟩
    · rw [hparse, hLT, fmt_codes_empty]
      exact parse_go_nil _ _ _
    · have hmemL : ∀ x ∈ ([] ++ pre) ++ [last], RChunk x := by
        intro x hx
        simp only [List.nil_append] at hx
        rcases List.mem_append.mp hx with h0 | h0
        · obtain ⟨_, a, b, d, e⟩ := hpre x h0
          exact ⟨a, b, d, e⟩
        · rw [List.mem_singleton.mp h0]
          exact ⟨h2, h3, h4, h5⟩
      rw [ts_true _ hmemL, hS]
      have e1 : sgo ({} : Fmts) (([] ++ pre) ++ [last]) = sgo {} (c0 :: cs) := by
        simp only [List.nil_append]
        exact h7b {}
      have e2 : lastTags ({} : Fmts) (([] ++ pre) ++ [last]) = lastTags c0.tags cs := by
        simp only [List.nil_append]
        rw [lastTags_concat, minusRU_of_toggle h5, h6b]
      rw [e1, e2]
  · refine ⟨(([] ++ pre) ++ [last]) ++ [⟨[], none, none, {}⟩], ?_, ?_⟩
    · rw [hparse]
      rw [parse_codes_flush_end _ hLTt hLT ([] ++ pre) last h1]
      rw [show (⟨[], last.fgcolor, last.bgcolor,
            fmtXor (minusRU last.tags) (lastTags c0.tags cs)⟩ : Chunk)
          = (⟨[], none, none, {}⟩ : Chunk) from by
        rw [h3, h4, minusRU_of_toggle h5, h6b, fmtXor_self]]
    · have hmemL : ∀ x ∈ (([] ++ pre) ++ [last]) ++ [(⟨[], none, none, {}⟩ : Chunk)],
          RChunk x := by
        intro x hx
        simp only [List.nil_append] at hx
        rcases List.mem_append.mp hx with h0 | h0
        · rcases List.mem_append.mp h0 with h9 | h9
          · obtain ⟨_, a, b, d, e⟩ := hpre x h9
            exact ⟨a, b, d, e⟩
          · rw [List.mem_singleton.mp h9]
            exact ⟨h2, h3, h4, h5⟩
        · rw [List.mem_singleton.mp h0]
          exact ⟨rfl, rfl, rfl, rfl⟩
      rw [ts_true _ hmemL, hS]
      simp only [List.nil_append]
      rw [sgo_append (pre ++ [last]) {} [(⟨[], none, none, {}⟩ : Chunk)]]
      have hlt2 : lastTags ({} : Fmts) (pre ++ [last]) = lastTags c0.tags cs := by
        rw [lastTags_concat, minusRU_of_toggle h5, h6b]
      rw [hlt2, h7b {}]
      have hse : sgo (lastTags c0.tags cs) [(⟨[], none, none, {}⟩ : Chunk)] =
          fmt_codes (lastTags c0.tags cs) := by
        simp [sgo, fmtXor_empty_right]
      rw [hse]
      have hlt3 : lastTags ({} : Fmts)
          ((pre ++ [last]) ++ [(⟨[], none, none, {}⟩ : Chunk)]) = {} := by
        rw [lastTags_concat]
        rfl
      rw [hlt3, fmt_codes_empty]
      simp [List.append_assoc]

/-- C2 counterexample: the composition-API expression `Tags.Bold('\x02')` --
the Bold keyword applied to a string that itself contains the raw bold
control code -- does not round-trip: parsing its serialization and
re-serializing the parsed chunk list yields a different string. -/
theorem C2_counterexample :
    (parse (to_string true (evalT (.tag none none ⟨false, false, true, false, false⟩
        (.txt ['\x02']))))).map (to_string true) ≠
      some (to_string true (evalT (.tag none none ⟨false, false, true, false, false⟩
        (.txt ['\x02'])))) := by decide

/-- C2 (amended): for every styled-text value built from the public Tags
composition API using only the toggle format keywords (bold, underline,
reverse) applied to nonempty strings free of the five mIRC control codes,
parsing the serialization with Tags.parse and re-serializing the result
yields exactly the same string as serializing directly. -/
theorem C2_round_trip (t : TExpr) (h : PlainToggle t) :
    (parse (to_string true (evalT t))).map (to_string true) =
      some (to_string true (evalT t)) := by
  obtain ⟨L, hL1, hL2⟩ :=
    round_trip_chunks (evalT t) (evalT_plain h) (evalT_ne_nil h)
  rw [hL1, Option.map_some', hL2]

theorem C2_witness :
    (parse (to_string true (evalT (.cat (.tag none none ⟨false, false, true, false, false⟩
        (.txt ['h', 'i'])) (.txt ['y', 'o']))))).map (to_string true) =
      some (to_string true (evalT (.cat (.tag none none ⟨false, false, true, false, false⟩
        (.txt ['h', 'i'])) (.txt ['y', 'o'])))) :=
  C2_round_trip _ (PlainToggle.cat
    (PlainToggle.tag (by decide) (PlainToggle.txt (by decide) (by decide)))
    (PlainToggle.txt (by decide) (by decide)))

end Pypeul
